import Mathlib

/-!
Verification of the image-processing core of the repository
(CHPS0703TraitementImages): pixel grids, convolution filters,
rank filters, morphological operations, Sobel and Canny.

The grid (ImageData in the source) is modelled as dimensions plus a pixel
function; every filter transforms the in-bounds cells exactly as the
corresponding C++ loop does and leaves all other cells untouched (the C++
loops never write outside the raster).  Pixel values are modelled over an
arbitrary linear ordered field: the rational instance makes everything
executable, the real instance is used for the filters that need exp, sqrt
and atan2 (Gaussian smoothing and the Canny pipeline).
-/

namespace ImageSpec

/-- Model of ImageData: a raster of width*height pixels with a number of
color channels; pix y x c is the sample of row y, column x, channel c
(the C++ layout data[y][x*colors+c]). -/
structure Image (α : Type) where
  width : ℕ
  height : ℕ
  colors : ℕ
  pix : ℕ → ℕ → ℕ → α

variable {α : Type} [LinearOrderedField α]

/-- A cell index (y, x, c) addresses an existing cell of the raster. -/
def inBounds (g : Image α) (y x c : ℕ) : Prop :=
  y < g.height ∧ x < g.width ∧ c < g.colors

instance (g : Image α) (y x c : ℕ) : Decidable (inBounds g y x c) := by
  unfold inBounds; infer_instance

/-- Bounds test for a signed neighbor position, as written in every filter
loop: ny >= 0 && ny < height && nx >= 0 && nx < width. -/
def okZ (g : Image α) (ny nx : ℤ) : Prop :=
  0 ≤ ny ∧ ny < g.height ∧ 0 ≤ nx ∧ nx < g.width

instance (g : Image α) (ny nx : ℤ) : Decidable (okZ g ny nx) := by
  unfold okZ; infer_instance

/-- ImageUtils::clamp: if (value < minVal) return minVal; if (value > maxVal)
return maxVal; return value. -/
def clamp (v lo hi : α) : α :=
  if v < lo then lo else if v > hi then hi else v

theorem clamp_mem (v lo hi : α) (h : lo ≤ hi) :
    lo ≤ clamp v lo hi ∧ clamp v lo hi ≤ hi := by
  unfold clamp
  split
  · exact ⟨le_refl _, h⟩
  · split
    · exact ⟨h, le_refl _⟩
    · next h1 h2 => exact ⟨not_lt.mp h1, not_lt.mp h2⟩

theorem clamp_of_le (v lo hi : α) (h1 : lo ≤ v) (h2 : v ≤ hi) :
    clamp v lo hi = v := by
  unfold clamp
  rw [if_neg (not_lt.mpr h1), if_neg (not_lt.mpr h2)]

theorem clamp_of_ge (v lo hi : α) (h1 : lo ≤ hi) (h2 : hi ≤ v) :
    clamp v lo hi = hi := by
  unfold clamp
  rcases lt_or_eq_of_le h2 with hlt | heq
  · rw [if_neg (not_lt.mpr (h1.trans h2)), if_pos hlt]
  · rw [if_neg (not_lt.mpr (h1.trans h2)), ← heq]
    split <;> rfl

/-- One pixel of the generic convolution of ConvolutionFilter
(applyConvolution): the weighted sum over the square window of radius r,
out-of-range neighbors skipped, reading the pre-transform snapshot. -/
def convPix (g : Image α) (r : ℕ) (ker : ℤ → ℤ → α) (y x c : ℕ) : α :=
  ∑ dy ∈ Finset.range (2 * r + 1), ∑ dx ∈ Finset.range (2 * r + 1),
    (if okZ g ((y : ℤ) + dy - r) ((x : ℤ) + dx - r) then
       ker ((dy : ℤ) - r) ((dx : ℤ) - r) *
         g.pix ((y : ℤ) + dy - r).toNat ((x : ℤ) + dx - r).toNat c
     else 0)

/-- ConvolutionFilter::applyConvolution: every in-bounds cell is replaced by
the clamped convolution sum; nothing else is written. -/
def convApply (g : Image α) (r : ℕ) (ker : ℤ → ℤ → α) : Image α :=
  { g with pix := fun y x c =>
      if inBounds g y x c then clamp (convPix g r ker y x c) 0 255
      else g.pix y x c }

/-- MeanFilter kernel weight: 1 / (kernelSize * kernelSize), independent of
the position. -/
def meanKer (k : ℕ) : ℤ → ℤ → α := fun _ _ => 1 / ((k : α) * k)

/-- MeanFilter::apply. -/
def meanApply (g : Image α) (k : ℕ) : Image α :=
  convApply g (k / 2) (meanKer k)

/-- Model of StructuringElement: the explicit list of (dx, dy) offsets plus
the stored radius. -/
structure SElem where
  offsets : List (ℤ × ℤ)
  radius : ℤ

/-- StructuringElement::createSquare: all points of the square
[-radius, radius]^2 in row scan order. -/
def createSquare (r : ℕ) : SElem :=
  ⟨(List.range (2 * r + 1)).flatMap (fun dy =>
      (List.range (2 * r + 1)).map (fun dx => ((dx : ℤ) - r, (dy : ℤ) - r))),
   r⟩

/-- StructuringElement::createCross: the 4-connected neighborhood plus the
center. -/
def createCross : SElem :=
  ⟨[(0, 0), (1, 0), (-1, 0), (0, 1), (0, -1)], 1⟩

/-- One pixel of MorphologicalOperation::applyMorphological: fold the
comparison function over the snapshot values at the in-bounds positions
reached by the offsets of the structuring element, starting from initValue. -/
def morphPix (g : Image α) (B : SElem) (init : α) (comp : α → α → α)
    (y x c : ℕ) : α :=
  B.offsets.foldl (fun acc off =>
    if okZ g ((y : ℤ) + off.2) ((x : ℤ) + off.1) then
      comp acc (g.pix ((y : ℤ) + off.2).toNat ((x : ℤ) + off.1).toNat c)
    else acc) init

/-- MorphologicalOperation::applyMorphological. -/
def morphApply (g : Image α) (B : SElem) (init : α) (comp : α → α → α) :
    Image α :=
  { g with pix := fun y x c =>
      if inBounds g y x c then morphPix g B init comp y x c
      else g.pix y x c }

/-- Erosion::apply: initial value 255, pointwise minimum written as the
ternary (a < b) ? a : b. -/
def erosionApply (g : Image α) (B : SElem) : Image α :=
  morphApply g B 255 (fun a b => if a < b then a else b)

/-- Dilatation::apply: initial value 0, pointwise maximum written as the
ternary (a > b) ? a : b. -/
def dilatationApply (g : Image α) (B : SElem) : Image α :=
  morphApply g B 0 (fun a b => if a > b then a else b)

/-- Opening::apply: erosion then dilatation with the same structuring
element (both constructor branches compose the two passes this way). -/
def openingApply (g : Image α) (B : SElem) : Image α :=
  dilatationApply (erosionApply g B) B

/-- Closing::apply: dilatation then erosion with the same structuring
element. -/
def closingApply (g : Image α) (B : SElem) : Image α :=
  erosionApply (dilatationApply g B) B

/-- The list of snapshot values the morphological loop actually reads at a
given cell: one value for each offset of B whose target is in bounds, in
the scan order of the offset list. -/
def morphVals (g : Image α) (B : SElem) (y x c : ℕ) : List α :=
  B.offsets.filterMap (fun off =>
    if okZ g ((y : ℤ) + off.2) ((x : ℤ) + off.1) then
      some (g.pix ((y : ℤ) + off.2).toNat ((x : ℤ) + off.1).toNat c)
    else none)

@[simp] theorem convApply_width (g : Image α) (r : ℕ) (ker : ℤ → ℤ → α) :
    (convApply g r ker).width = g.width := rfl

@[simp] theorem convApply_height (g : Image α) (r : ℕ) (ker : ℤ → ℤ → α) :
    (convApply g r ker).height = g.height := rfl

@[simp] theorem convApply_colors (g : Image α) (r : ℕ) (ker : ℤ → ℤ → α) :
    (convApply g r ker).colors = g.colors := rfl

@[simp] theorem erosionApply_width (g : Image α) (B : SElem) :
    (erosionApply g B).width = g.width := rfl

@[simp] theorem erosionApply_height (g : Image α) (B : SElem) :
    (erosionApply g B).height = g.height := rfl

@[simp] theorem erosionApply_colors (g : Image α) (B : SElem) :
    (erosionApply g B).colors = g.colors := rfl

@[simp] theorem dilatationApply_width (g : Image α) (B : SElem) :
    (dilatationApply g B).width = g.width := rfl

@[simp] theorem dilatationApply_height (g : Image α) (B : SElem) :
    (dilatationApply g B).height = g.height := rfl

@[simp] theorem dilatationApply_colors (g : Image α) (B : SElem) :
    (dilatationApply g B).colors = g.colors := rfl

@[simp] theorem openingApply_width (g : Image α) (B : SElem) :
    (openingApply g B).width = g.width := rfl

@[simp] theorem openingApply_height (g : Image α) (B : SElem) :
    (openingApply g B).height = g.height := rfl

@[simp] theorem openingApply_colors (g : Image α) (B : SElem) :
    (openingApply g B).colors = g.colors := rfl

@[simp] theorem closingApply_width (g : Image α) (B : SElem) :
    (closingApply g B).width = g.width := rfl

@[simp] theorem closingApply_height (g : Image α) (B : SElem) :
    (closingApply g B).height = g.height := rfl

@[simp] theorem closingApply_colors (g : Image α) (B : SElem) :
    (closingApply g B).colors = g.colors := rfl

theorem ite_lt_min (a b : α) : (if a < b then a else b) = min a b := by
  rcases lt_or_ge a b with h | h
  · rw [if_pos h, min_eq_left h.le]
  · rw [if_neg (not_lt.mpr h), min_eq_right h]

theorem ite_gt_max (a b : α) : (if a > b then a else b) = max a b := by
  rcases lt_or_ge b a with h | h
  · rw [if_pos h, max_eq_left h.le]
  · rw [if_neg (not_lt.mpr h), max_eq_right h]

omit [LinearOrderedField α] in
theorem foldl_guard_filterMap {β : Type} (f : α → α → α) (P : β → Prop)
    [DecidablePred P] (v : β → α) (l : List β) (acc : α) :
    l.foldl (fun a off => if P off then f a (v off) else a) acc =
      (l.filterMap (fun off => if P off then some (v off) else none)).foldl
        f acc := by
  induction l generalizing acc with
  | nil => rfl
  | cons hd tl ih =>
      by_cases h : P hd
      · simp only [List.foldl_cons, List.filterMap_cons, if_pos h]
        exact ih (f acc (v hd))
      · simp only [List.foldl_cons, List.filterMap_cons, if_neg h]
        exact ih acc

theorem foldl_min_le_init (l : List α) (a : α) : l.foldl min a ≤ a := by
  induction l generalizing a with
  | nil => exact le_refl a
  | cons hd tl ih => exact le_trans (ih (min a hd)) (min_le_left a hd)

theorem foldl_min_le_mem (l : List α) : ∀ a v : α, v ∈ l → l.foldl min a ≤ v := by
  induction l with
  | nil => intro a v hv; cases hv
  | cons hd tl ih =>
      intro a v hv
      rcases List.mem_cons.mp hv with h | h
      · subst h
        exact le_trans (foldl_min_le_init tl (min a v)) (min_le_right a v)
      · exact ih (min a hd) v h

theorem le_foldl_min (l : List α) : ∀ a c : α, c ≤ a → (∀ v ∈ l, c ≤ v) →
    c ≤ l.foldl min a := by
  induction l with
  | nil => intro a c h1 _; exact h1
  | cons hd tl ih =>
      intro a c h1 h2
      exact ih (min a hd) c (le_min h1 (h2 hd (List.mem_cons_self hd tl)))
        (fun v hv => h2 v (List.mem_cons_of_mem hd hv))

theorem init_le_foldl_max (l : List α) (a : α) : a ≤ l.foldl max a := by
  induction l generalizing a with
  | nil => exact le_refl a
  | cons hd tl ih => exact le_trans (le_max_left a hd) (ih (max a hd))

theorem mem_le_foldl_max (l : List α) : ∀ a v : α, v ∈ l → v ≤ l.foldl max a := by
  induction l with
  | nil => intro a v hv; cases hv
  | cons hd tl ih =>
      intro a v hv
      rcases List.mem_cons.mp hv with h | h
      · subst h
        exact le_trans (le_max_right a v) (init_le_foldl_max tl (max a v))
      · exact ih (max a hd) v h

theorem foldl_max_le (l : List α) : ∀ a c : α, a ≤ c → (∀ v ∈ l, v ≤ c) →
    l.foldl max a ≤ c := by
  induction l with
  | nil => intro a c h1 _; exact h1
  | cons hd tl ih =>
      intro a c h1 h2
      exact ih (max a hd) c (max_le h1 (h2 hd (List.mem_cons_self hd tl)))
        (fun v hv => h2 v (List.mem_cons_of_mem hd hv))

theorem foldr_min_swap (l : List α) (a x : α) :
    List.foldr min (min a x) l = min x (List.foldr min a l) := by
  induction l with
  | nil => exact min_comm a x
  | cons hd tl ih =>
      simp only [List.foldr_cons, ih]
      rw [min_left_comm]

theorem foldl_min_eq_foldr (l : List α) (a : α) :
    l.foldl min a = l.foldr min a := by
  induction l generalizing a with
  | nil => rfl
  | cons hd tl ih =>
      simp only [List.foldl_cons, List.foldr_cons, ih (min a hd)]
      exact foldr_min_swap tl a hd

theorem foldr_max_swap (l : List α) (a x : α) :
    List.foldr max (max a x) l = max x (List.foldr max a l) := by
  induction l with
  | nil => exact max_comm a x
  | cons hd tl ih =>
      simp only [List.foldr_cons, ih]
      rw [max_left_comm]

theorem foldl_max_eq_foldr (l : List α) (a : α) :
    l.foldl max a = l.foldr max a := by
  induction l generalizing a with
  | nil => rfl
  | cons hd tl ih =>
      simp only [List.foldl_cons, List.foldr_cons, ih (max a hd)]
      exact foldr_max_swap tl a hd

theorem erosion_pix_eq (g : Image α) (B : SElem) (y x c : ℕ)
    (h : inBounds g y x c) :
    (erosionApply g B).pix y x c = (morphVals g B y x c).foldr min 255 := by
  unfold erosionApply morphApply morphPix
  simp only [if_pos h]
  have hstep : (fun (a b : α) => if a < b then a else b) = min := by
    funext a b; exact ite_lt_min a b
  refine Eq.trans (foldl_guard_filterMap (fun a b => if a < b then a else b)
    (fun off : ℤ × ℤ => okZ g ((y : ℤ) + off.2) ((x : ℤ) + off.1))
    (fun off : ℤ × ℤ =>
      g.pix ((y : ℤ) + off.2).toNat ((x : ℤ) + off.1).toNat c)
    B.offsets 255) ?_
  rw [hstep]
  exact foldl_min_eq_foldr _ 255

theorem dilatation_pix_eq (g : Image α) (B : SElem) (y x c : ℕ)
    (h : inBounds g y x c) :
    (dilatationApply g B).pix y x c = (morphVals g B y x c).foldr max 0 := by
  unfold dilatationApply morphApply morphPix
  simp only [if_pos h]
  have hstep : (fun (a b : α) => if a > b then a else b) = max := by
    funext a b; exact ite_gt_max a b
  refine Eq.trans (foldl_guard_filterMap (fun a b => if a > b then a else b)
    (fun off : ℤ × ℤ => okZ g ((y : ℤ) + off.2) ((x : ℤ) + off.1))
    (fun off : ℤ × ℤ =>
      g.pix ((y : ℤ) + off.2).toNat ((x : ℤ) + off.1).toNat c)
    B.offsets 0) ?_
  rw [hstep]
  exact foldl_max_eq_foldr _ 0

omit [LinearOrderedField α] in
theorem okZ_toNat (g : Image α) {ny nx : ℤ} (h : okZ g ny nx) :
    ny.toNat < g.height ∧ nx.toNat < g.width := by
  obtain ⟨h0, h1, h2, h3⟩ := h
  omega

omit [LinearOrderedField α] in
theorem mem_morphVals (g : Image α) (B : SElem) (y x c : ℕ) (v : α) :
    v ∈ morphVals g B y x c ↔
      ∃ off, off ∈ B.offsets ∧ okZ g ((y : ℤ) + off.2) ((x : ℤ) + off.1) ∧
        v = g.pix ((y : ℤ) + off.2).toNat ((x : ℤ) + off.1).toNat c := by
  unfold morphVals
  rw [List.mem_filterMap]
  constructor
  · rintro ⟨off, hoff, heq⟩
    by_cases hok : okZ g ((y : ℤ) + off.2) ((x : ℤ) + off.1)
    · rw [if_pos hok] at heq
      exact ⟨off, hoff, hok, (Option.some_inj.mp heq).symm⟩
    · rw [if_neg hok] at heq
      cases heq
  · rintro ⟨off, hoff, hok, rfl⟩
    exact ⟨off, hoff, by rw [if_pos hok]⟩

/-- Values in [lo, hi] on every in-bounds cell (the raster invariant of the
data model: samples conceptually in [0, 255]). -/
def rangeOK (g : Image α) (lo hi : α) : Prop :=
  ∀ y, y < g.height → ∀ x, x < g.width → ∀ c, c < g.colors →
    lo ≤ g.pix y x c ∧ g.pix y x c ≤ hi

/-- Pointwise order on the in-bounds cells of two same-shaped rasters. -/
def leOn (f g : Image α) : Prop :=
  ∀ y, y < f.height → ∀ x, x < f.width → ∀ c, c < f.colors →
    f.pix y x c ≤ g.pix y x c

/-- Pointwise equality on the in-bounds cells. -/
def eqOn (f g : Image α) : Prop :=
  ∀ y, y < f.height → ∀ x, x < f.width → ∀ c, c < f.colors →
    f.pix y x c = g.pix y x c

/-- The offset set of the structuring element is symmetric about the
origin (true for every element built by createSquare, createDisk and
createCross). -/
def symmSE (B : SElem) : Prop :=
  ∀ off ∈ B.offsets, (-off.1, -off.2) ∈ B.offsets

instance (g : Image α) (lo hi : α) : Decidable (rangeOK g lo hi) := by
  unfold rangeOK; infer_instance

instance (f g : Image α) : Decidable (leOn f g) := by
  unfold leOn; infer_instance

instance (f g : Image α) : Decidable (eqOn f g) := by
  unfold eqOn; infer_instance

instance (B : SElem) : Decidable (symmSE B) := by
  unfold symmSE; infer_instance

theorem erosion_le_val (g : Image α) (B : SElem) {y x c : ℕ}
    (hb : inBounds g y x c) {off : ℤ × ℤ} (hoff : off ∈ B.offsets)
    (hok : okZ g ((y : ℤ) + off.2) ((x : ℤ) + off.1)) :
    (erosionApply g B).pix y x c ≤
      g.pix ((y : ℤ) + off.2).toNat ((x : ℤ) + off.1).toNat c := by
  rw [erosion_pix_eq g B y x c hb, ← foldl_min_eq_foldr]
  exact foldl_min_le_mem _ 255 _
    ((mem_morphVals g B y x c _).mpr ⟨off, hoff, hok, rfl⟩)

theorem erosion_le_top (g : Image α) (B : SElem) {y x c : ℕ}
    (hb : inBounds g y x c) : (erosionApply g B).pix y x c ≤ 255 := by
  rw [erosion_pix_eq g B y x c hb, ← foldl_min_eq_foldr]
  exact foldl_min_le_init _ _

theorem le_erosion (g : Image α) (B : SElem) {y x c : ℕ}
    (hb : inBounds g y x c) {d : α} (htop : d ≤ 255)
    (hall : ∀ off ∈ B.offsets, okZ g ((y : ℤ) + off.2) ((x : ℤ) + off.1) →
      d ≤ g.pix ((y : ℤ) + off.2).toNat ((x : ℤ) + off.1).toNat c) :
    d ≤ (erosionApply g B).pix y x c := by
  rw [erosion_pix_eq g B y x c hb, ← foldl_min_eq_foldr]
  refine le_foldl_min _ 255 d htop (fun v hv => ?_)
  obtain ⟨off, hoff, hok, rfl⟩ := (mem_morphVals g B y x c v).mp hv
  exact hall off hoff hok

theorem val_le_dilatation (g : Image α) (B : SElem) {y x c : ℕ}
    (hb : inBounds g y x c) {off : ℤ × ℤ} (hoff : off ∈ B.offsets)
    (hok : okZ g ((y : ℤ) + off.2) ((x : ℤ) + off.1)) :
    g.pix ((y : ℤ) + off.2).toNat ((x : ℤ) + off.1).toNat c ≤
      (dilatationApply g B).pix y x c := by
  rw [dilatation_pix_eq g B y x c hb, ← foldl_max_eq_foldr]
  exact mem_le_foldl_max _ 0 _
    ((mem_morphVals g B y x c _).mpr ⟨off, hoff, hok, rfl⟩)

theorem bot_le_dilatation (g : Image α) (B : SElem) {y x c : ℕ}
    (hb : inBounds g y x c) : 0 ≤ (dilatationApply g B).pix y x c := by
  rw [dilatation_pix_eq g B y x c hb, ← foldl_max_eq_foldr]
  exact init_le_foldl_max _ _

theorem dilatation_le (g : Image α) (B : SElem) {y x c : ℕ}
    (hb : inBounds g y x c) {d : α} (hbot : 0 ≤ d)
    (hall : ∀ off ∈ B.offsets, okZ g ((y : ℤ) + off.2) ((x : ℤ) + off.1) →
      g.pix ((y : ℤ) + off.2).toNat ((x : ℤ) + off.1).toNat c ≤ d) :
    (dilatationApply g B).pix y x c ≤ d := by
  rw [dilatation_pix_eq g B y x c hb, ← foldl_max_eq_foldr]
  refine foldl_max_le _ 0 d hbot (fun v hv => ?_)
  obtain ⟨off, hoff, hok, rfl⟩ := (mem_morphVals g B y x c v).mp hv
  exact hall off hoff hok

theorem erosion_rangeOK (g : Image α) (B : SElem)
    (hg : rangeOK g 0 255) : rangeOK (erosionApply g B) 0 255 := by
  intro y hy x hx c hc
  have hb : inBounds g y x c := ⟨hy, hx, hc⟩
  constructor
  · refine le_erosion g B hb (by norm_num) (fun off hoff hok => ?_)
    obtain ⟨h1, h2⟩ := okZ_toNat g hok
    exact (hg _ h1 _ h2 _ hc).1
  · exact erosion_le_top g B hb

theorem dilatation_rangeOK (g : Image α) (B : SElem)
    (hg : rangeOK g 0 255) : rangeOK (dilatationApply g B) 0 255 := by
  intro y hy x hx c hc
  have hb : inBounds g y x c := ⟨hy, hx, hc⟩
  constructor
  · exact bot_le_dilatation g B hb
  · refine dilatation_le g B hb (by norm_num) (fun off hoff hok => ?_)
    obtain ⟨h1, h2⟩ := okZ_toNat g hok
    exact (hg _ h1 _ h2 _ hc).2

omit [LinearOrderedField α] in
theorem okZ_of_dims (f g : Image α) {ny nx : ℤ}
    (hw : f.width = g.width) (hh : f.height = g.height)
    (h : okZ f ny nx) : okZ g ny nx := by
  unfold okZ at h ⊢
  omega

theorem leOn_antisymm (f g : Image α)
    (hw : f.width = g.width) (hh : f.height = g.height)
    (hc : f.colors = g.colors)
    (h1 : leOn f g) (h2 : leOn g f) : eqOn f g := by
  intro y hy x hx c hcc
  exact le_antisymm (h1 y hy x hx c hcc)
    (h2 y (hh ▸ hy) x (hw ▸ hx) c (hc ▸ hcc))

theorem erosion_mono (f g : Image α) (B : SElem)
    (hw : f.width = g.width) (hh : f.height = g.height)
    (hc : f.colors = g.colors) (hfg : leOn f g) :
    leOn (erosionApply f B) (erosionApply g B) := by
  intro y hy x hx c hcc
  have hbf : inBounds f y x c := ⟨hy, hx, hcc⟩
  have hbg : inBounds g y x c := ⟨hh ▸ hy, hw ▸ hx, hc ▸ hcc⟩
  refine le_erosion g B hbg (erosion_le_top f B hbf) (fun off hoff hok => ?_)
  have hokf : okZ f ((y : ℤ) + off.2) ((x : ℤ) + off.1) :=
    okZ_of_dims g f hw.symm hh.symm hok
  refine le_trans (erosion_le_val f B hbf hoff hokf) ?_
  obtain ⟨hq1, hq2⟩ := okZ_toNat f hokf
  exact hfg _ hq1 _ hq2 c hcc

theorem dilatation_mono (f g : Image α) (B : SElem)
    (hw : f.width = g.width) (hh : f.height = g.height)
    (hc : f.colors = g.colors) (hfg : leOn f g) :
    leOn (dilatationApply f B) (dilatationApply g B) := by
  intro y hy x hx c hcc
  have hbf : inBounds f y x c := ⟨hy, hx, hcc⟩
  have hbg : inBounds g y x c := ⟨hh ▸ hy, hw ▸ hx, hc ▸ hcc⟩
  refine dilatation_le f B hbf (bot_le_dilatation g B hbg)
    (fun off hoff hok => ?_)
  have hokg : okZ g ((y : ℤ) + off.2) ((x : ℤ) + off.1) :=
    okZ_of_dims f g hw hh hok
  refine le_trans ?_ (val_le_dilatation g B hbg hoff hokg)
  obtain ⟨hq1, hq2⟩ := okZ_toNat f hok
  exact hfg _ hq1 _ hq2 c hcc

theorem morphVals_congr (f g : Image α) (B : SElem) (y x c : ℕ)
    (hw : f.width = g.width) (hh : f.height = g.height)
    (hc : f.colors = g.colors) (hcc : c < f.colors) (hfg : eqOn f g) :
    morphVals f B y x c = morphVals g B y x c := by
  unfold morphVals
  refine List.filterMap_congr (fun off _ => ?_)
  by_cases hok : okZ f ((y : ℤ) + off.2) ((x : ℤ) + off.1)
  · have hokg : okZ g ((y : ℤ) + off.2) ((x : ℤ) + off.1) :=
      okZ_of_dims f g hw hh hok
    rw [if_pos hok, if_pos hokg]
    obtain ⟨hq1, hq2⟩ := okZ_toNat f hok
    rw [hfg _ hq1 _ hq2 c hcc]
  · have hokg : ¬ okZ g ((y : ℤ) + off.2) ((x : ℤ) + off.1) := by
      intro hcon
      exact hok (okZ_of_dims g f hw.symm hh.symm hcon)
    rw [if_neg hok, if_neg hokg]

theorem erosion_congr (f g : Image α) (B : SElem)
    (hw : f.width = g.width) (hh : f.height = g.height)
    (hc : f.colors = g.colors) (hfg : eqOn f g) :
    eqOn (erosionApply f B) (erosionApply g B) := by
  intro y hy x hx c hcc
  rw [erosion_pix_eq f B y x c ⟨hy, hx, hcc⟩,
    erosion_pix_eq g B y x c ⟨hh ▸ hy, hw ▸ hx, hc ▸ hcc⟩,
    morphVals_congr f g B y x c hw hh hc hcc hfg]

theorem dilatation_congr (f g : Image α) (B : SElem)
    (hw : f.width = g.width) (hh : f.height = g.height)
    (hc : f.colors = g.colors) (hfg : eqOn f g) :
    eqOn (dilatationApply f B) (dilatationApply g B) := by
  intro y hy x hx c hcc
  rw [dilatation_pix_eq f B y x c ⟨hy, hx, hcc⟩,
    dilatation_pix_eq g B y x c ⟨hh ▸ hy, hw ▸ hx, hc ▸ hcc⟩,
    morphVals_congr f g B y x c hw hh hc hcc hfg]

theorem opening_anti (g : Image α) (B : SElem) (hB : symmSE B)
    (hg : rangeOK g 0 255) : leOn (openingApply g B) g := by
  intro y hy x hx c hc
  simp only [openingApply_height, openingApply_width, openingApply_colors]
    at hy hx hc
  have hbe : inBounds (erosionApply g B) y x c := ⟨hy, hx, hc⟩
  refine dilatation_le (erosionApply g B) B hbe (hg y hy x hx c hc).1
    (fun off hoff hok => ?_)
  obtain ⟨dx, dy⟩ := off
  have hokg : okZ g ((y : ℤ) + dy) ((x : ℤ) + dx) :=
    okZ_of_dims (erosionApply g B) g rfl rfl hok
  have hoff2 : (-dx, -dy) ∈ B.offsets := hB (dx, dy) hoff
  obtain ⟨hq1, hq2⟩ := okZ_toNat g hokg
  have hbq : inBounds g ((y : ℤ) + dy).toNat ((x : ℤ) + dx).toNat c :=
    ⟨hq1, hq2, hc⟩
  have h0y : (0 : ℤ) ≤ (y : ℤ) + dy := hokg.1
  have h0x : (0 : ℤ) ≤ (x : ℤ) + dx := hokg.2.2.1
  have hyh : y < g.height := hy
  have hxw : x < g.width := hx
  have hok2 : okZ g ((((y : ℤ) + dy).toNat : ℤ) + (-dy))
      ((((x : ℤ) + dx).toNat : ℤ) + (-dx)) := by
    unfold okZ
    refine ⟨by omega, by omega, by omega, by omega⟩
  have hle := erosion_le_val g B hbq hoff2 hok2
  have e1 : ((((y : ℤ) + dy).toNat : ℤ) + (-dy)).toNat = y := by omega
  have e2 : ((((x : ℤ) + dx).toNat : ℤ) + (-dx)).toNat = x := by omega
  rw [e1, e2] at hle
  exact hle

theorem closing_ext (g : Image α) (B : SElem) (hB : symmSE B)
    (hg : rangeOK g 0 255) : leOn g (closingApply g B) := by
  intro y hy x hx c hc
  have hbe : inBounds (dilatationApply g B) y x c := ⟨hy, hx, hc⟩
  refine le_erosion (dilatationApply g B) B hbe (hg y hy x hx c hc).2
    (fun off hoff hok => ?_)
  obtain ⟨dx, dy⟩ := off
  have hokg : okZ g ((y : ℤ) + dy) ((x : ℤ) + dx) :=
    okZ_of_dims (dilatationApply g B) g rfl rfl hok
  have hoff2 : (-dx, -dy) ∈ B.offsets := hB (dx, dy) hoff
  obtain ⟨hq1, hq2⟩ := okZ_toNat g hokg
  have hbq : inBounds g ((y : ℤ) + dy).toNat ((x : ℤ) + dx).toNat c :=
    ⟨hq1, hq2, hc⟩
  have h0y : (0 : ℤ) ≤ (y : ℤ) + dy := hokg.1
  have h0x : (0 : ℤ) ≤ (x : ℤ) + dx := hokg.2.2.1
  have hyh : y < g.height := hy
  have hxw : x < g.width := hx
  have hok2 : okZ g ((((y : ℤ) + dy).toNat : ℤ) + (-dy))
      ((((x : ℤ) + dx).toNat : ℤ) + (-dx)) := by
    unfold okZ
    refine ⟨by omega, by omega, by omega, by omega⟩
  have hle := val_le_dilatation g B hbq hoff2 hok2
  have e1 : ((((y : ℤ) + dy).toNat : ℤ) + (-dy)).toNat = y := by omega
  have e2 : ((((x : ℤ) + dx).toNat : ℤ) + (-dx)).toNat = x := by omega
  rw [e1, e2] at hle
  exact hle

theorem opening_idem (g : Image α) (B : SElem) (hB : symmSE B)
    (hg : rangeOK g 0 255) :
    eqOn (openingApply (openingApply g B) B) (openingApply g B) := by
  have hu : rangeOK (erosionApply g B) 0 255 := erosion_rangeOK g B hg
  have h1 : leOn
      (erosionApply (dilatationApply (erosionApply g B) B) B)
      (erosionApply g B) :=
    erosion_mono _ _ B rfl rfl rfl (opening_anti g B hB hg)
  have h2 : leOn (erosionApply g B)
      (erosionApply (dilatationApply (erosionApply g B) B) B) :=
    closing_ext (erosionApply g B) B hB hu
  have heq : eqOn
      (erosionApply (dilatationApply (erosionApply g B) B) B)
      (erosionApply g B) :=
    leOn_antisymm _ _ rfl rfl rfl h1 h2
  exact dilatation_congr _ _ B rfl rfl rfl heq

theorem closing_idem (g : Image α) (B : SElem) (hB : symmSE B)
    (hg : rangeOK g 0 255) :
    eqOn (closingApply (closingApply g B) B) (closingApply g B) := by
  have hv : rangeOK (dilatationApply g B) 0 255 := dilatation_rangeOK g B hg
  have h1 : leOn
      (dilatationApply (erosionApply (dilatationApply g B) B) B)
      (dilatationApply g B) :=
    opening_anti (dilatationApply g B) B hB hv
  have h2 : leOn (dilatationApply g B)
      (dilatationApply (erosionApply (dilatationApply g B) B) B) :=
    dilatation_mono _ _ B rfl rfl rfl (closing_ext g B hB hg)
  have heq : eqOn
      (dilatationApply (erosionApply (dilatationApply g B) B) B)
      (dilatationApply g B) :=
    leOn_antisymm _ _ rfl rfl rfl h1 h2
  exact erosion_congr _ _ B rfl rfl rfl heq

/-- Sample rational grid used by the concrete witnesses. -/
def gridQ : Image ℚ :=
  ⟨2, 2, 1, fun y x _ => ((100 * y + 50 * x : ℕ) : ℚ)⟩

/-- An asymmetric structuring element: a single offset (dx, dy) = (1, 0),
accepted by the public StructuringElement constructor. -/
def asymSE : SElem := ⟨[(1, 0)], 1⟩

/-- A 3 x 1 grid with a single bright pixel at x = 2. -/
def stepGrid : Image ℚ := ⟨3, 1, 1, fun _ x _ => if x = 2 then 255 else 0⟩

/-- C2: for every grid and every structuring element B, Erosion::apply sets
each in-bounds output pixel to the fold of min over the pre-transform
snapshot values at the in-bounds positions p+b for b in the explicit offset
list of B, starting from 255, and Dilatation::apply to the fold of max over
the same values starting from 0. -/
theorem erosion_dilatation_min_max_offsets (g : Image α) (B : SElem)
    (y x c : ℕ) (h : inBounds g y x c) :
    (erosionApply g B).pix y x c = (morphVals g B y x c).foldr min 255 ∧
    (dilatationApply g B).pix y x c = (morphVals g B y x c).foldr max 0 :=
  ⟨erosion_pix_eq g B y x c h, dilatation_pix_eq g B y x c h⟩

theorem erosion_dilatation_min_max_offsets_witness :
    inBounds gridQ 0 0 0 ∧
    ((erosionApply gridQ (createSquare 1)).pix 0 0 0 =
        (morphVals gridQ (createSquare 1) 0 0 0).foldr min 255 ∧
      (dilatationApply gridQ (createSquare 1)).pix 0 0 0 =
        (morphVals gridQ (createSquare 1) 0 0 0).foldr max 0) :=
  ⟨by decide,
   erosion_dilatation_min_max_offsets gridQ (createSquare 1) 0 0 0 (by decide)⟩

/-- C3 counterexample: with the asymmetric structuring element {(1, 0)}
(legal for the public StructuringElement constructor) the opening is not
anti-extensive: on stepGrid the opened pixel (0, 0) is 255 while the source
pixel is 0.  Erosion and Dilatation both shift by +b (the implementation
uses p+b in both), so the adjunction needed for the algebraic properties
only holds when the offset list is symmetric. -/
theorem opening_not_anti_extensive_asym :
    ¬ leOn (openingApply stepGrid asymSE) stepGrid := by
  intro h
  have h0 := h 0 (by decide) 0 (by decide) 0 (by decide)
  have hv : (openingApply stepGrid asymSE).pix 0 0 0 = 255 := by decide
  have hs : stepGrid.pix 0 0 0 = 0 := by decide
  rw [hv, hs] at h0
  norm_num at h0

/-- C3 (amended): for every grid with values in [0, 255] and every
structuring element whose offset list is symmetric about the origin (as are
all elements produced by createSquare, createDisk and createCross),
Opening::apply is idempotent and anti-extensive and Closing::apply is
idempotent and extensive, pointwise on the in-bounds cells. -/
theorem opening_closing_algebraic (g : Image α) (B : SElem)
    (hB : symmSE B) (hg : rangeOK g 0 255) :
    eqOn (openingApply (openingApply g B) B) (openingApply g B) ∧
    leOn (openingApply g B) g ∧
    eqOn (closingApply (closingApply g B) B) (closingApply g B) ∧
    leOn g (closingApply g B) :=
  ⟨opening_idem g B hB hg, opening_anti g B hB hg,
   closing_idem g B hB hg, closing_ext g B hB hg⟩

theorem opening_closing_algebraic_witness :
    symmSE createCross ∧ rangeOK gridQ 0 255 ∧
    (eqOn (openingApply (openingApply gridQ createCross) createCross)
        (openingApply gridQ createCross) ∧
      leOn (openingApply gridQ createCross) gridQ ∧
      eqOn (closingApply (closingApply gridQ createCross) createCross)
        (closingApply gridQ createCross) ∧
      leOn gridQ (closingApply gridQ createCross)) :=
  ⟨by decide, by decide,
   opening_closing_algebraic gridQ createCross (by decide) (by decide)⟩

/-- Manual swap of two cells of the value buffer, as written in the
quickselect of MedianFilter::apply: temp = v[i]; v[i] = v[j]; v[j] = temp. -/
def lswap (l : List α) (i j : ℕ) : List α :=
  (l.set i (l.getD j 0)).set j (l.getD i 0)

omit [LinearOrderedField α] in
theorem getD_set_self {l : List α} {i : ℕ} (a d : α) (h : i < l.length) :
    (l.set i a).getD i d = a := by
  simp [List.getD_eq_getElem?_getD, List.getElem?_set_self, h]

omit [LinearOrderedField α] in
theorem getD_set_ne {l : List α} {i j : ℕ} (a d : α) (h : i ≠ j) :
    (l.set i a).getD j d = l.getD j d := by
  simp [List.getD_eq_getElem?_getD, List.getElem?_set_ne h]

theorem lswap_length (l : List α) (i j : ℕ) :
    (lswap l i j).length = l.length := by
  simp [lswap]

theorem lswap_getD_fst (l : List α) {i j : ℕ} (hi : i < l.length)
    (hj : j < l.length) : (lswap l i j).getD i 0 = l.getD j 0 := by
  unfold lswap
  by_cases hij : i = j
  · subst hij
    rw [getD_set_self _ _ (by simpa using hi)]
  · rw [getD_set_ne _ _ (Ne.symm hij), getD_set_self _ _ hi]

theorem lswap_getD_snd (l : List α) {i j : ℕ} (hi : i < l.length)
    (hj : j < l.length) : (lswap l i j).getD j 0 = l.getD i 0 := by
  unfold lswap
  rw [getD_set_self _ _ (by simpa using hj)]

theorem lswap_getD_other (l : List α) {i j k : ℕ} (h1 : k ≠ i) (h2 : k ≠ j) :
    (lswap l i j).getD k 0 = l.getD k 0 := by
  unfold lswap
  rw [getD_set_ne _ _ (Ne.symm h2), getD_set_ne _ _ (Ne.symm h1)]

theorem set_getD_self_eq (l : List α) {i : ℕ} (hi : i < l.length) :
    l.set i (l.getD i 0) = l := by
  rw [List.getD_eq_getElem l 0 hi]
  apply List.ext_getElem
  · simp
  · intro k hk1 hk2
    by_cases hki : k = i
    · subst hki; simp
    · rw [List.getElem_set_of_ne (fun hc => hki hc.symm)]

theorem set_perm_exchange (l : List α) {i : ℕ} (b : α) (hi : i < l.length) :
    List.Perm ((l.set i b) ++ [l.getD i 0]) (l ++ [b]) := by
  have hdec : l.set i b = l.take i ++ b :: l.drop (i + 1) :=
    List.set_eq_take_cons_drop b hi
  have hself : l.take i ++ l.getD i 0 :: l.drop (i + 1) = l := by
    have h2 := List.set_eq_take_cons_drop (l.getD i 0) hi
    rw [set_getD_self_eq l hi] at h2
    exact h2.symm
  have h1 : List.Perm ((b :: l.drop (i + 1)) ++ [l.getD i 0])
      ((l.getD i 0 :: l.drop (i + 1)) ++ [b]) := by
    refine List.Perm.trans (List.perm_append_comm) ?_
    simp only [List.singleton_append, List.cons_append]
    exact List.Perm.cons _ ((List.perm_append_singleton b _).symm)
  have e1 : (l.take i ++ b :: l.drop (i + 1)) ++ [l.getD i 0] =
      l.take i ++ ((b :: l.drop (i + 1)) ++ [l.getD i 0]) := by
    simp [List.append_assoc]
  have e2 : (l.take i ++ l.getD i 0 :: l.drop (i + 1)) ++ [b] =
      l.take i ++ ((l.getD i 0 :: l.drop (i + 1)) ++ [b]) := by
    simp [List.append_assoc]
  have main : List.Perm ((l.take i ++ b :: l.drop (i + 1)) ++ [l.getD i 0])
      ((l.take i ++ l.getD i 0 :: l.drop (i + 1)) ++ [b]) := by
    rw [e1, e2]
    exact List.Perm.append_left _ h1
  rw [hdec]
  refine main.trans ?_
  rw [hself]

theorem lswap_perm (l : List α) {i j : ℕ} (hi : i < l.length)
    (hj : j < l.length) : List.Perm (lswap l i j) l := by
  unfold lswap
  have h1 : List.Perm ((l.set i (l.getD j 0)).set j (l.getD i 0) ++
      [(l.set i (l.getD j 0)).getD j 0]) ((l.set i (l.getD j 0)) ++
      [l.getD i 0]) := by
    have := set_perm_exchange (l.set i (l.getD j 0)) (l.getD i 0)
      (by simpa using hj)
    simpa using this
  have h2 : List.Perm ((l.set i (l.getD j 0)) ++ [l.getD i 0])
      (l ++ [l.getD j 0]) := set_perm_exchange l (l.getD j 0) hi
  by_cases hij : i = j
  · subst hij
    have hsv : (l.set i (l.getD i 0)).set i (l.getD i 0) =
        l.set i (l.getD i 0) := List.set_set _ _ _ _
    rw [hsv, set_getD_self_eq l hi]
  · have hvj : (l.set i (l.getD j 0)).getD j 0 = l.getD j 0 :=
      getD_set_ne _ _ hij
    rw [hvj] at h1
    have h3 : List.Perm ((l.set i (l.getD j 0)).set j (l.getD i 0) ++
        [l.getD j 0]) (l ++ [l.getD j 0]) := h1.trans h2
    exact (List.perm_append_right_iff [l.getD j 0]).mp h3

/-- The Lomuto partition scan of MedianFilter::apply: for j in [left, right)
move every value strictly below the pivot to the front, tracking the store
index i.  Returns the buffer and the final store index. -/
def partScan (pivot : α) (right j i : ℕ) (l : List α) : List α × ℕ :=
  if j < right then
    (if l.getD j 0 < pivot then partScan pivot right (j + 1) (i + 1) (lswap l i j)
     else partScan pivot right (j + 1) i l)
  else (l, i)
termination_by right - j

theorem partScan_snd_ge (pivot : α) (right : ℕ) :
    ∀ j i (l : List α), i ≤ (partScan pivot right j i l).2 := by
  intro j i l
  induction j, i, l using partScan.induct pivot right with
  | case1 j i l hj hlt ih =>
      rw [partScan, if_pos hj, if_pos hlt]
      exact le_trans (Nat.le_succ i) ih
  | case2 j i l hj hlt ih =>
      rw [partScan, if_pos hj, if_neg hlt]
      exact ih
  | case3 j i l hj =>
      rw [partScan, if_neg hj]

theorem partScan_snd_le (pivot : α) (right : ℕ) :
    ∀ j i (l : List α), i ≤ j → j ≤ right →
      (partScan pivot right j i l).2 ≤ right := by
  intro j i l
  induction j, i, l using partScan.induct pivot right with
  | case1 j i l hj hlt ih =>
      intro hij hjr
      rw [partScan, if_pos hj, if_pos hlt]
      exact ih (by omega) hj
  | case2 j i l hj hlt ih =>
      intro hij hjr
      rw [partScan, if_pos hj, if_neg hlt]
      exact ih (by omega) hj
  | case3 j i l hj =>
      intro hij hjr
      rw [partScan, if_neg hj]
      omega

theorem partScan_go (pivot : α) (right left : ℕ) :
    ∀ j i (l : List α),
      left ≤ i → i ≤ j → j ≤ right → right < l.length →
      (∀ k, left ≤ k → k < i → l.getD k 0 < pivot) →
      (∀ k, i ≤ k → k < j → ¬ l.getD k 0 < pivot) →
      ((partScan pivot right j i l).1.length = l.length ∧
       List.Perm (partScan pivot right j i l).1 l ∧
       (∀ k, k < l.length → (k < left ∨ right ≤ k) →
         (partScan pivot right j i l).1.getD k 0 = l.getD k 0) ∧
       (left ≤ (partScan pivot right j i l).2 ∧
        (partScan pivot right j i l).2 ≤ right) ∧
       (∀ k, left ≤ k → k < (partScan pivot right j i l).2 →
         (partScan pivot right j i l).1.getD k 0 < pivot) ∧
       (∀ k, (partScan pivot right j i l).2 ≤ k → k < right →
         ¬ (partScan pivot right j i l).1.getD k 0 < pivot)) := by
  intro j i l
  induction j, i, l using partScan.induct pivot right with
  | case1 j i l hj hlt ih =>
      intro hli hij hjr hrl hpre hmid
      rw [partScan, if_pos hj, if_pos hlt]
      have hilen : i < l.length := by omega
      have hjlen : j < l.length := by omega
      have hlen : (lswap l i j).length = l.length := lswap_length l i j
      have h5 : ∀ k, left ≤ k → k < i + 1 → (lswap l i j).getD k 0 < pivot := by
        intro k hk1 hk2
        by_cases hki : k = i
        · subst hki
          rw [lswap_getD_fst l hilen hjlen]
          exact hlt
        · have hkj : k ≠ j := by omega
          rw [lswap_getD_other l hki hkj]
          exact hpre k hk1 (by omega)
      have h6 : ∀ k, i + 1 ≤ k → k < j + 1 → ¬ (lswap l i j).getD k 0 < pivot := by
        intro k hk1 hk2
        by_cases hkj : k = j
        · subst hkj
          rw [lswap_getD_snd l hilen hjlen]
          exact hmid i (le_refl i) (by omega)
        · have hki : k ≠ i := by omega
          rw [lswap_getD_other l hki hkj]
          exact hmid k (by omega) (by omega)
      obtain ⟨cL, cP, cO, cI, cE, cF⟩ := ih hli.step (by omega) hj (by omega) h5 h6
      refine ⟨by rw [cL, hlen], cP.trans (lswap_perm l hilen hjlen), ?_, cI, cE, cF⟩
      intro k hk hout
      have hki : k ≠ i := by omega
      have hkj : k ≠ j := by omega
      rw [cO k (by omega) hout, lswap_getD_other l hki hkj]
  | case2 j i l hj hlt ih =>
      intro hli hij hjr hrl hpre hmid
      rw [partScan, if_pos hj, if_neg hlt]
      have h6 : ∀ k, i ≤ k → k < j + 1 → ¬ l.getD k 0 < pivot := by
        intro k hk1 hk2
        by_cases hkj : k = j
        · subst hkj; exact hlt
        · exact hmid k hk1 (by omega)
      exact ih hli (by omega) hj hrl hpre h6
  | case3 j i l hj =>
      intro hli hij hjr hrl hpre hmid
      rw [partScan, if_neg hj]
      have hjr2 : j = right := by omega
      exact ⟨rfl, List.Perm.refl l, fun k _ _ => rfl, ⟨hli, by omega⟩, hpre,
        fun k hk1 hk2 => hmid k hk1 (by omega)⟩

theorem partition_spec (l : List α) (left right : ℕ) (hlr : left ≤ right)
    (hr : right < l.length) :
    ((lswap (partScan (l.getD right 0) right left left l).1
        (partScan (l.getD right 0) right left left l).2 right).length =
        l.length ∧
     List.Perm (lswap (partScan (l.getD right 0) right left left l).1
        (partScan (l.getD right 0) right left left l).2 right) l ∧
     (∀ k, k < l.length → (k < left ∨ right < k) →
       (lswap (partScan (l.getD right 0) right left left l).1
          (partScan (l.getD right 0) right left left l).2 right).getD k 0 =
         l.getD k 0) ∧
     (left ≤ (partScan (l.getD right 0) right left left l).2 ∧
      (partScan (l.getD right 0) right left left l).2 ≤ right) ∧
     (lswap (partScan (l.getD right 0) right left left l).1
        (partScan (l.getD right 0) right left left l).2 right).getD
          (partScan (l.getD right 0) right left left l).2 0 =
       l.getD right 0 ∧
     (∀ k, left ≤ k → k < (partScan (l.getD right 0) right left left l).2 →
       (lswap (partScan (l.getD right 0) right left left l).1
          (partScan (l.getD right 0) right left left l).2 right).getD k 0 <
         l.getD right 0) ∧
     (∀ k, (partScan (l.getD right 0) right left left l).2 < k → k ≤ right →
       ¬ (lswap (partScan (l.getD right 0) right left left l).1
          (partScan (l.getD right 0) right left left l).2 right).getD k 0 <
         l.getD right 0)) := by
  obtain ⟨sL, sP, sO, ⟨sI1, sI2⟩, sE, sF⟩ :=
    partScan_go (l.getD right 0) right left left left l (le_refl left)
      (le_refl left) hlr hr (fun k hk1 hk2 => absurd hk1 (by omega))
      (fun k hk1 hk2 => absurd hk1 (by omega))
  set pr := partScan (l.getD right 0) right left left l with hpr
  have hi1len : pr.2 < pr.1.length := by omega
  have hrlen : right < pr.1.length := by omega
  have hl2len : (lswap pr.1 pr.2 right).length = l.length := by
    rw [lswap_length, sL]
  have hpivot : pr.1.getD right 0 = l.getD right 0 :=
    sO right (by omega) (Or.inr (le_refl right))
  refine ⟨hl2len, (lswap_perm pr.1 hi1len hrlen).trans sP, ?_, ⟨sI1, sI2⟩,
    ?_, ?_, ?_⟩
  · intro k hk hout
    have hki : k ≠ pr.2 := by omega
    have hkr : k ≠ right := by omega
    rw [lswap_getD_other pr.1 hki hkr]
    exact sO k (by omega) (by omega)
  · rw [lswap_getD_fst pr.1 hi1len hrlen]
    exact hpivot
  · intro k hk1 hk2
    have hki : k ≠ pr.2 := by omega
    have hkr : k ≠ right := by omega
    rw [lswap_getD_other pr.1 hki hkr]
    exact sE k hk1 hk2
  · intro k hk1 hk2
    by_cases hkr : k = right
    · subst hkr
      rw [lswap_getD_snd pr.1 hi1len hrlen]
      exact sF pr.2 (le_refl _) (by omega)
    · have hki : k ≠ pr.2 := by omega
      rw [lswap_getD_other pr.1 hki hkr]
      exact sF k (by omega) (by omega)

/-- The quickselect while-loop of MedianFilter::apply: partition the
segment [left, right] around the pivot at values[right], stop when the
pivot lands at mid, otherwise continue in the half containing mid. -/
def qselGo (l : List α) (left right mid : ℕ) : List α :=
  if h : left < right then
    (if (partScan (l.getD right 0) right left left l).2 = mid then
       lswap (partScan (l.getD right 0) right left left l).1
         (partScan (l.getD right 0) right left left l).2 right
     else if mid < (partScan (l.getD right 0) right left left l).2 then
       qselGo (lswap (partScan (l.getD right 0) right left left l).1
           (partScan (l.getD right 0) right left left l).2 right)
         left ((partScan (l.getD right 0) right left left l).2 - 1) mid
     else
       qselGo (lswap (partScan (l.getD right 0) right left left l).1
           (partScan (l.getD right 0) right left left l).2 right)
         ((partScan (l.getD right 0) right left left l).2 + 1) right mid)
  else l
termination_by right - left
decreasing_by
  · have hub := partScan_snd_le (l.getD right 0) right left left l
      (le_refl left) h.le
    omega
  · have hlb := partScan_snd_ge (l.getD right 0) right left left l
    omega

theorem seg_value_exchange (l2 l : List α) (a b : ℕ)
    (hlen : l2.length = l.length) (hperm : List.Perm l2 l)
    (hout : ∀ k, k < l.length → (k < a ∨ b < k) → l2.getD k 0 = l.getD k 0)
    (hab : a ≤ b) (hb : b < l.length) :
    ∀ q, a ≤ q → q ≤ b →
      ∃ q0, a ≤ q0 ∧ q0 ≤ b ∧ l2.getD q 0 = l.getD q0 0 := by
  have htk : l2.take a = l.take a := by
    apply List.ext_getElem
    · simp [hlen]
    · intro k hk1 hk2
      rw [List.getElem_take, List.getElem_take]
      have hkl : k < l.length := by simp at hk2; omega
      have hka : k < a := by simp at hk2; omega
      have := hout k hkl (Or.inl hka)
      rw [List.getD_eq_getElem l2 0 (by omega),
        List.getD_eq_getElem l 0 hkl] at this
      exact this
  have hdr : l2.drop (b + 1) = l.drop (b + 1) := by
    apply List.ext_getElem
    · simp [hlen]
    · intro k hk1 hk2
      rw [List.getElem_drop, List.getElem_drop]
      have hkl : b + 1 + k < l.length := by simp at hk2; omega
      have := hout (b + 1 + k) hkl (Or.inr (by omega))
      rw [List.getD_eq_getElem l2 0 (by omega),
        List.getD_eq_getElem l 0 hkl] at this
      exact this
  have hdec : l = l.take a ++ ((l.drop a).take (b + 1 - a) ++ l.drop (b + 1)) := by
    have h1 : (l.drop a).take (b + 1 - a) ++ (l.drop a).drop (b + 1 - a) =
        l.drop a := List.take_append_drop _ _
    have h2 : (l.drop a).drop (b + 1 - a) = l.drop (b + 1) := by
      rw [List.drop_drop]
      congr 1
      omega
    rw [h2] at h1
    rw [h1, List.take_append_drop]
  have hdec2 : l2 = l2.take a ++ ((l2.drop a).take (b + 1 - a) ++ l2.drop (b + 1)) := by
    have h1 : (l2.drop a).take (b + 1 - a) ++ (l2.drop a).drop (b + 1 - a) =
        l2.drop a := List.take_append_drop _ _
    have h2 : (l2.drop a).drop (b + 1 - a) = l2.drop (b + 1) := by
      rw [List.drop_drop]
      congr 1
      omega
    rw [h2] at h1
    rw [h1, List.take_append_drop]
  have hsegperm : List.Perm ((l2.drop a).take (b + 1 - a))
      ((l.drop a).take (b + 1 - a)) := by
    have hp : List.Perm
        (l2.take a ++ ((l2.drop a).take (b + 1 - a) ++ l2.drop (b + 1)))
        (l.take a ++ ((l.drop a).take (b + 1 - a) ++ l.drop (b + 1))) := by
      rw [← hdec2, ← hdec]
      exact hperm
    rw [htk, hdr] at hp
    have hp3 : List.Perm ((l2.drop a).take (b + 1 - a) ++ l.drop (b + 1))
        ((l.drop a).take (b + 1 - a) ++ l.drop (b + 1)) :=
      (List.perm_append_left_iff (l.take a)).mp hp
    exact (List.perm_append_right_iff (l.drop (b + 1))).mp hp3
  intro q hq1 hq2
  have hq2len : q < l2.length := by omega
  have hseg2len : ((l2.drop a).take (b + 1 - a)).length = b + 1 - a := by
    simp [hlen]
    omega
  have hmem : l2.getD q 0 ∈ (l2.drop a).take (b + 1 - a) := by
    have hidx : q - a < ((l2.drop a).take (b + 1 - a)).length := by omega
    have hval : ((l2.drop a).take (b + 1 - a))[q - a] = l2.getD q 0 := by
      rw [List.getElem_take, List.getElem_drop]
      rw [List.getD_eq_getElem l2 0 hq2len]
      congr 1
      omega
    rw [← hval]
    exact List.getElem_mem hidx
  have hmem2 : l2.getD q 0 ∈ (l.drop a).take (b + 1 - a) :=
    hsegperm.mem_iff.mp hmem
  obtain ⟨t, ht, hvt⟩ := List.mem_iff_getElem.mp hmem2
  have hseglen : ((l.drop a).take (b + 1 - a)).length = b + 1 - a := by
    simp
    omega
  refine ⟨a + t, by omega, by omega, ?_⟩
  rw [List.getD_eq_getElem l 0 (by omega)]
  rw [← hvt, List.getElem_take, List.getElem_drop]

theorem bounds_transfer (l2 l : List α) (left right : ℕ)
    (hlen : l2.length = l.length) (hperm : List.Perm l2 l)
    (hout : ∀ k, k < l.length → (k < left ∨ right < k) →
      l2.getD k 0 = l.getD k 0)
    (hlr : left ≤ right) (hr : right < l.length)
    (H1 : ∀ p q, p < left → left ≤ q → q < l.length →
      l.getD p 0 ≤ l.getD q 0)
    (H2 : ∀ p q, p ≤ right → right < q → q < l.length →
      l.getD p 0 ≤ l.getD q 0) :
    (∀ p q, p < left → left ≤ q → q < l.length →
      l2.getD p 0 ≤ l2.getD q 0) ∧
    (∀ p q, p ≤ right → right < q → q < l.length →
      l2.getD p 0 ≤ l2.getD q 0) := by
  have hexch := seg_value_exchange l2 l left right hlen hperm hout hlr hr
  constructor
  · intro p q hp hq hql
    have hpeq : l2.getD p 0 = l.getD p 0 :=
      hout p (by omega) (Or.inl hp)
    rw [hpeq]
    by_cases hqr : q ≤ right
    · obtain ⟨q0, hq01, hq02, hq0e⟩ := hexch q hq hqr
      rw [hq0e]
      exact H1 p q0 hp hq01 (by omega)
    · rw [hout q hql (Or.inr (by omega))]
      exact H1 p q hp hq hql
  · intro p q hp hq hql
    have hqeq : l2.getD q 0 = l.getD q 0 :=
      hout q hql (Or.inr hq)
    rw [hqeq]
    by_cases hpl : p < left
    · rw [hout p (by omega) (Or.inl hpl)]
      exact H2 p q hp hq hql
    · obtain ⟨p0, hp01, hp02, hp0e⟩ := hexch p (by omega) hp
      rw [hp0e]
      exact H2 p0 q hp02 hq hql

theorem qselGo_spec :
    ∀ (l : List α) (left right mid : ℕ),
      left ≤ mid → mid ≤ right → right < l.length →
      (∀ p q, p < left → left ≤ q → q < l.length →
        l.getD p 0 ≤ l.getD q 0) →
      (∀ p q, p ≤ right → right < q → q < l.length →
        l.getD p 0 ≤ l.getD q 0) →
      ((qselGo l left right mid).length = l.length ∧
       List.Perm (qselGo l left right mid) l ∧
       (∀ p, p < mid →
         (qselGo l left right mid).getD p 0 ≤
           (qselGo l left right mid).getD mid 0) ∧
       (∀ q, mid < q → q < l.length →
         (qselGo l left right mid).getD mid 0 ≤
           (qselGo l left right mid).getD q 0)) := by
  intro l left right mid
  induction l, left, right, mid using qselGo.induct with
  | case1 l left right h =>
      intro hlm hmr hrl H1 H2
      obtain ⟨A, B, C, D, E, F, G⟩ := partition_spec l left right h.le hrl
      rw [qselGo, dif_pos h, if_pos rfl]
      refine ⟨A, B, ?_, ?_⟩
      · intro p hp
        rw [E]
        by_cases hpl : p < left
        · rw [C p (by omega) (Or.inl hpl)]
          exact H1 p right hpl (by omega) hrl
        · exact (F p (by omega) hp).le
      · intro q hq hql
        rw [E]
        by_cases hqr : q ≤ right
        · exact not_lt.mp (G q hq hqr)
        · rw [C q hql (Or.inr (by omega))]
          exact H2 right q (le_refl right) (by omega) hql
  | case2 l left right mid h he hgt ih =>
      intro hlm hmr hrl H1 H2
      obtain ⟨A, B, C, D, E, F, G⟩ := partition_spec l left right h.le hrl
      obtain ⟨H1t, H2t⟩ := bounds_transfer _ l left right A B
        (fun k hk hout => C k hk (by omega)) h.le hrl H1 H2
      rw [qselGo, dif_pos h, if_neg he, if_pos hgt]
      set i0 := (partScan (l.getD right 0) right left left l).2 with hi0
      set l2 := lswap (partScan (l.getD right 0) right left left l).1 i0 right
        with hl2
      have hge1 : 1 ≤ i0 := by omega
      have H2new : ∀ p q, p ≤ i0 - 1 → i0 - 1 < q → q < l2.length →
          l2.getD p 0 ≤ l2.getD q 0 := by
        intro p q hp hq hql
        have hql2 : q < l.length := by omega
        by_cases hqr : q ≤ right
        · have hqi : i0 ≤ q := by omega
          have hpiv : l.getD right 0 ≤ l2.getD q 0 := by
            rcases eq_or_lt_of_le hqi with hqe | hql3
            · rw [← hqe, E]
            · exact not_lt.mp (G q hql3 hqr)
          by_cases hpl : p < left
          · exact H1t p q hpl (by omega) hql2
          · exact le_trans (F p (by omega) (by omega)).le hpiv
        · exact H2t p q (by omega) (by omega) hql2
      have H1new : ∀ p q, p < left → left ≤ q → q < l2.length →
          l2.getD p 0 ≤ l2.getD q 0 := by
        intro p q hp hq hql
        exact H1t p q hp hq (by omega)
      obtain ⟨iL, iP, iQ1, iQ2⟩ := ih hlm (by omega) (by omega) H1new H2new
      refine ⟨by omega, iP.trans B, iQ1, ?_⟩
      intro q hq hql
      exact iQ2 q hq (by omega)
  | case3 l left right mid h he hgt ih =>
      intro hlm hmr hrl H1 H2
      obtain ⟨A, B, C, D, E, F, G⟩ := partition_spec l left right h.le hrl
      obtain ⟨H1t, H2t⟩ := bounds_transfer _ l left right A B
        (fun k hk hout => C k hk (by omega)) h.le hrl H1 H2
      rw [qselGo, dif_pos h, if_neg he, if_neg hgt]
      set i0 := (partScan (l.getD right 0) right left left l).2 with hi0
      set l2 := lswap (partScan (l.getD right 0) right left left l).1 i0 right
        with hl2
      have hilt : i0 < mid := by omega
      have H1new : ∀ p q, p < i0 + 1 → i0 + 1 ≤ q → q < l2.length →
          l2.getD p 0 ≤ l2.getD q 0 := by
        intro p q hp hq hql
        have hql2 : q < l.length := by omega
        by_cases hpl : p < left
        · exact H1t p q hpl (by omega) hql2
        · have hpiv : l2.getD p 0 ≤ l.getD right 0 := by
            rcases eq_or_lt_of_le (show p ≤ i0 by omega) with hpe | hpl3
            · rw [hpe, E]
            · exact (F p (by omega) (by omega)).le
          by_cases hqr : q ≤ right
          · exact le_trans hpiv (not_lt.mp (G q (by omega) hqr))
          · exact H2t p q (by omega) (by omega) hql2
      have H2new : ∀ p q, p ≤ right → right < q → q < l2.length →
          l2.getD p 0 ≤ l2.getD q 0 := by
        intro p q hp hq hql
        exact H2t p q hp hq (by omega)
      obtain ⟨iL, iP, iQ1, iQ2⟩ := ih (by omega) hmr (by omega) H1new H2new
      refine ⟨by omega, iP.trans B, iQ1, ?_⟩
      intro q hq hql
      exact iQ2 q hq (by omega)
  | case4 l left right mid h =>
      intro hlm hmr hrl H1 H2
      rw [qselGo, dif_neg h]
      have heq : left = mid ∧ mid = right := by omega
      refine ⟨rfl, List.Perm.refl l, ?_, ?_⟩
      · intro p hp
        exact H1 p mid (by omega) (by omega) (by omega)
      · intro q hq hql
        exact H2 mid q (by omega) (by omega) hql

theorem countP_le_of_tail (l : List α) (m : ℕ) (p : α → Bool)
    (h : ∀ k, m ≤ k → k < l.length → ¬ p (l.getD k 0) = true) :
    l.countP p ≤ m := by
  have hsplit : l = l.take m ++ l.drop m := (List.take_append_drop m l).symm
  have hdropz : (l.drop m).countP p = 0 := by
    rw [List.countP_eq_zero]
    intro a ha
    obtain ⟨t, ht, hvt⟩ := List.mem_iff_getElem.mp ha
    have htl : m + t < l.length := by simp at ht; omega
    rw [List.getElem_drop] at hvt
    have := h (m + t) (by omega) htl
    rw [List.getD_eq_getElem l 0 htl] at this
    rw [hvt] at this
    exact this
  calc l.countP p = (l.take m ++ l.drop m).countP p := by rw [← hsplit]
    _ = (l.take m).countP p + (l.drop m).countP p := List.countP_append p _ _
    _ = (l.take m).countP p := by omega
    _ ≤ (l.take m).length := List.countP_le_length p
    _ ≤ m := by simp

theorem le_countP_of_head (l : List α) (m : ℕ) (p : α → Bool)
    (hm : m < l.length) (h : ∀ k, k ≤ m → p (l.getD k 0) = true) :
    m + 1 ≤ l.countP p := by
  have hsplit : l = l.take (m + 1) ++ l.drop (m + 1) :=
    (List.take_append_drop (m + 1) l).symm
  have htake : (l.take (m + 1)).countP p = (l.take (m + 1)).length := by
    rw [List.countP_eq_length]
    intro a ha
    obtain ⟨t, ht, hvt⟩ := List.mem_iff_getElem.mp ha
    have htm : t ≤ m := by simp at ht; omega
    have htl : t < l.length := by omega
    have := h t htm
    rw [List.getD_eq_getElem l 0 htl] at this
    rw [List.getElem_take] at hvt
    rw [hvt] at this
    exact this
  have hlen : (l.take (m + 1)).length = m + 1 := by simp; omega
  calc m + 1 = (l.take (m + 1)).countP p := by rw [htake, hlen]
    _ ≤ (l.take (m + 1)).countP p + (l.drop (m + 1)).countP p := by omega
    _ = (l.take (m + 1) ++ l.drop (m + 1)).countP p :=
        (List.countP_append p _ _).symm
    _ = l.countP p := by rw [← hsplit]

theorem sorted_getD_unique (s : List α) (hs : List.Sorted (· ≤ ·) s)
    (m : ℕ) (hm : m < s.length) (v : α)
    (hc1 : s.countP (fun w => decide (w < v)) ≤ m)
    (hc2 : m + 1 ≤ s.countP (fun w => decide (w ≤ v))) :
    s.getD m 0 = v := by
  rcases lt_trichotomy (s.getD m 0) v with hlt | heq | hgt
  · exfalso
    have hall : ∀ k, k ≤ m → decide (s.getD k 0 < v) = true := by
      intro k hk
      have hkm : k < s.length := by omega
      have hrel : s.getD k 0 ≤ s.getD m 0 := by
        rw [List.getD_eq_getElem s 0 hkm, List.getD_eq_getElem s 0 hm]
        have := hs.rel_get_of_le (show (⟨k, hkm⟩ : Fin s.length) ≤ ⟨m, hm⟩
          from by simpa using hk)
        simpa using this
      simp only [decide_eq_true_eq]
      exact lt_of_le_of_lt hrel hlt
    have := le_countP_of_head s m (fun w => decide (w < v)) hm hall
    omega
  · exact heq
  · exfalso
    have hall : ∀ k, m ≤ k → k < s.length →
        ¬ decide (s.getD k 0 ≤ v) = true := by
      intro k hk hkl
      have hrel : s.getD m 0 ≤ s.getD k 0 := by
        rw [List.getD_eq_getElem s 0 hkl, List.getD_eq_getElem s 0 hm]
        have := hs.rel_get_of_le (show (⟨m, hm⟩ : Fin s.length) ≤ ⟨k, hkl⟩
          from by simpa using hk)
        simpa using this
      simp only [decide_eq_true_eq, not_le]
      exact lt_of_lt_of_le hgt hrel
    have := countP_le_of_tail s m (fun w => decide (w ≤ v)) hall
    omega

/-- The value MedianFilter::apply stores for one cell: run quickselect for
the middle index count / 2 on the collected values and read that slot. -/
def medianSelect (vals : List α) : α :=
  (qselGo vals 0 (vals.length - 1) (vals.length / 2)).getD (vals.length / 2) 0

theorem medianSelect_eq_sorted (vals : List α) (hne : vals ≠ []) :
    medianSelect vals =
      (vals.insertionSort (· ≤ ·)).getD (vals.length / 2) 0 := by
  have hlen : 1 ≤ vals.length := List.length_pos.mpr hne
  obtain ⟨qL, qP, qQ1, qQ2⟩ := qselGo_spec vals 0 (vals.length - 1)
    (vals.length / 2) (by omega) (by omega) (by omega)
    (fun p q hp _ _ => absurd hp (by omega))
    (fun p q _ hq hql => absurd (And.intro hq hql) (by omega))
  set L := qselGo vals 0 (vals.length - 1) (vals.length / 2) with hL
  set m := vals.length / 2 with hm
  set v := L.getD m 0 with hv
  have hmL : m < L.length := by omega
  have hc1L : L.countP (fun w => decide (w < v)) ≤ m := by
    refine countP_le_of_tail L m _ (fun k hk hkl => ?_)
    simp only [decide_eq_true_eq, not_lt]
    rcases eq_or_lt_of_le hk with hke | hklt
    · rw [← hke]
    · exact qQ2 k hklt (by omega)
  have hc2L : m + 1 ≤ L.countP (fun w => decide (w ≤ v)) := by
    refine le_countP_of_head L m _ hmL (fun k hk => ?_)
    simp only [decide_eq_true_eq]
    rcases eq_or_lt_of_le hk with hke | hklt
    · rw [hke]
    · exact qQ1 k hklt
  set s := vals.insertionSort (· ≤ ·) with hs
  have hsp : List.Perm s L :=
    (List.perm_insertionSort _ vals).trans qP.symm
  have hslen : s.length = vals.length := by
    rw [hs]
    exact (List.perm_insertionSort _ vals).length_eq
  have hc1 : s.countP (fun w => decide (w < v)) ≤ m := by
    rw [hsp.countP_eq]
    exact hc1L
  have hc2 : m + 1 ≤ s.countP (fun w => decide (w ≤ v)) := by
    rw [hsp.countP_eq]
    exact hc2L
  have := sorted_getD_unique s (List.sorted_insertionSort _ vals) m
    (by omega) v hc1 hc2
  rw [this]
  rfl

/-- The values MedianFilter::apply collects for one cell: every in-bounds
neighbor in the square window of radius r, in scan order, read from the
pre-transform snapshot. -/
def neighborVals (g : Image α) (r : ℕ) (y x c : ℕ) : List α :=
  (List.range (2 * r + 1)).flatMap (fun dy : ℕ =>
    (List.range (2 * r + 1)).filterMap (fun dx : ℕ =>
      if okZ g ((y : ℤ) + (dy : ℤ) - r) ((x : ℤ) + (dx : ℤ) - r) then
        some (g.pix ((y : ℤ) + (dy : ℤ) - r).toNat
          ((x : ℤ) + (dx : ℤ) - r).toNat c)
      else none))

/-- MedianFilter::apply. -/
def medianApply (g : Image α) (r : ℕ) : Image α :=
  { g with pix := fun y x c =>
      if inBounds g y x c then
        (if (neighborVals g r y x c).isEmpty then g.pix y x c
         else medianSelect (neighborVals g r y x c))
      else g.pix y x c }

@[simp] theorem medianApply_width (g : Image α) (r : ℕ) :
    (medianApply g r).width = g.width := rfl

@[simp] theorem medianApply_height (g : Image α) (r : ℕ) :
    (medianApply g r).height = g.height := rfl

@[simp] theorem medianApply_colors (g : Image α) (r : ℕ) :
    (medianApply g r).colors = g.colors := rfl

theorem center_mem_neighborVals (g : Image α) (r : ℕ) {y x c : ℕ}
    (h : inBounds g y x c) : g.pix y x c ∈ neighborVals g r y x c := by
  unfold neighborVals
  rw [List.mem_flatMap]
  have hmemr : r ∈ List.range (2 * r + 1) := List.mem_range.mpr (by omega)
  refine ⟨r, hmemr, ?_⟩
  rw [List.mem_filterMap]
  refine ⟨r, hmemr, ?_⟩
  have hok : okZ g ((y : ℤ) + r - r) ((x : ℤ) + r - r) := by
    unfold okZ
    obtain ⟨h1, h2, h3⟩ := h
    refine ⟨by omega, by omega, by omega, by omega⟩
  rw [if_pos hok]
  have e1 : ((y : ℤ) + r - r).toNat = y := by omega
  have e2 : ((x : ℤ) + r - r).toNat = x := by omega
  rw [e1, e2]

theorem neighborVals_ne_nil (g : Image α) (r : ℕ) {y x c : ℕ}
    (h : inBounds g y x c) : neighborVals g r y x c ≠ [] :=
  List.ne_nil_of_mem (center_mem_neighborVals g r h)

theorem mem_neighborVals_pix (g : Image α) (r : ℕ) {y x c : ℕ} {v : α}
    (hv : v ∈ neighborVals g r y x c) :
    ∃ ny nx, ny < g.height ∧ nx < g.width ∧ v = g.pix ny nx c := by
  unfold neighborVals at hv
  rw [List.mem_flatMap] at hv
  obtain ⟨dy, _, hv2⟩ := hv
  rw [List.mem_filterMap] at hv2
  obtain ⟨dx, _, hv3⟩ := hv2
  by_cases hok : okZ g ((y : ℤ) + dy - r) ((x : ℤ) + dx - r)
  · rw [if_pos hok] at hv3
    obtain ⟨h1, h2⟩ := okZ_toNat g hok
    exact ⟨_, _, h1, h2, (Option.some_inj.mp hv3).symm⟩
  · rw [if_neg hok] at hv3
    cases hv3

theorem median_pix_sorted (g : Image α) (r : ℕ) (y x c : ℕ)
    (h : inBounds g y x c) :
    (medianApply g r).pix y x c =
      ((neighborVals g r y x c).insertionSort (· ≤ ·)).getD
        ((neighborVals g r y x c).length / 2) 0 := by
  unfold medianApply
  simp only [if_pos h]
  have hne : neighborVals g r y x c ≠ [] := neighborVals_ne_nil g r h
  rw [if_neg (by simpa [List.isEmpty_iff] using hne)]
  exact medianSelect_eq_sorted _ hne

/-- C8: for every grid and every in-bounds cell, MedianFilter::apply stores
the element of index count / 2 (0-indexed) of the full ascending ordering
of the count in-bounds window values; no two central values are averaged,
and the quickselect in the code agrees with a full sort followed by
indexing, so the result is independent of the selection algorithm. -/
theorem median_order_statistic (g : Image α) (r : ℕ) (y x c : ℕ)
    (h : inBounds g y x c) :
    (medianApply g r).pix y x c =
      ((neighborVals g r y x c).insertionSort (· ≤ ·)).getD
        ((neighborVals g r y x c).length / 2) 0 :=
  median_pix_sorted g r y x c h

theorem median_order_statistic_witness :
    inBounds gridQ 0 0 0 ∧
    (medianApply gridQ 1).pix 0 0 0 =
      ((neighborVals gridQ 1 0 0 0).insertionSort (· ≤ ·)).getD
        ((neighborVals gridQ 1 0 0 0).length / 2) 0 :=
  ⟨by decide, median_order_statistic gridQ 1 0 0 0 (by decide)⟩

/-- The Sobel horizontal mask Gx. -/
def sobelXmat : List (List ℤ) := [[-1, 0, 1], [-2, 0, 2], [-1, 0, 1]]

/-- The Sobel vertical mask Gy. -/
def sobelYmat : List (List ℤ) := [[-1, -2, -1], [0, 0, 0], [1, 2, 1]]

/-- Mask lookup mask[i][j]. -/
def matAt (m : List (List ℤ)) (i j : ℕ) : ℤ := (m.getD i []).getD j 0

/-- One Newton-Raphson step of the hand-rolled square root of
SobelFilter::apply: x := 0.5 * (x + a / x). -/
def newtonStep (a m : α) : α := 0.5 * (m + a / m)

/-- The magnitude computation of SobelFilter::apply: start from the squared
gradient and, when it is positive, run ten Newton-Raphson iterations. -/
def sobelMagnitude (sq : α) : α :=
  if 0 < sq then (fun m => newtonStep sq m)^[10] sq else sq

/-- Horizontal gradient of the interior loop of SobelFilter::apply (no
bounds checks: only called with 1 <= y < height-1, 1 <= x < width-1). -/
def sobelGx (g : Image α) (y x c : ℕ) : α :=
  ∑ dy ∈ Finset.range 3, ∑ dx ∈ Finset.range 3,
    g.pix (y + dy - 1) (x + dx - 1) c * (matAt sobelXmat dy dx : α)

/-- Vertical gradient of the interior loop of SobelFilter::apply. -/
def sobelGy (g : Image α) (y x c : ℕ) : α :=
  ∑ dy ∈ Finset.range 3, ∑ dx ∈ Finset.range 3,
    g.pix (y + dy - 1) (x + dx - 1) c * (matAt sobelYmat dy dx : α)

/-- SobelFilter::apply: validateDimensions (3, 3) throws before touching the
grid when the image is smaller than 3x3; otherwise the interior pixels get
the clamped Newton magnitude and zeroBorders then overwrites the whole
first/last row and column with zero. -/
def sobelApply (g : Image α) : Image α :=
  if 3 ≤ g.width ∧ 3 ≤ g.height then
    { g with pix := fun y x c =>
        if inBounds g y x c then
          (if y = 0 ∨ y = g.height - 1 ∨ x = 0 ∨ x = g.width - 1 then 0
           else clamp (sobelMagnitude (sobelGx g y x c * sobelGx g y x c +
             sobelGy g y x c * sobelGy g y x c)) 0 255)
        else g.pix y x c }
  else g

/-- Modelled from the spec: the border behavior the specification ascribes
to the gradient filters, which is absent from SobelFilter::apply in the
source: every pixel, border included, is computed from the 3x3 masks over
the in-bounds neighbors only (zero padding by omission), with no separate
border-zeroing step.  The in-bounds guard below is the only difference from
the interior loop of the source. -/
def sobelGxPartial (g : Image α) (y x c : ℕ) : α :=
  ∑ dy ∈ Finset.range 3, ∑ dx ∈ Finset.range 3,
    (if okZ g ((y : ℤ) + dy - 1) ((x : ℤ) + dx - 1) then
      g.pix ((y : ℤ) + dy - 1).toNat ((x : ℤ) + dx - 1).toNat c *
        (matAt sobelXmat dy dx : α)
    else 0)

/-- Modelled from the spec: vertical companion of sobelGxPartial. -/
def sobelGyPartial (g : Image α) (y x c : ℕ) : α :=
  ∑ dy ∈ Finset.range 3, ∑ dx ∈ Finset.range 3,
    (if okZ g ((y : ℤ) + dy - 1) ((x : ℤ) + dx - 1) then
      g.pix ((y : ℤ) + dy - 1).toNat ((x : ℤ) + dx - 1).toNat c *
        (matAt sobelYmat dy dx : α)
    else 0)

/-- Modelled from the spec: Sobel with zero-padded borders computed like
interior pixels and no border overwrite. -/
def sobelSpecApply (g : Image α) : Image α :=
  { g with pix := fun y x c =>
      if inBounds g y x c then
        clamp (sobelMagnitude (sobelGxPartial g y x c * sobelGxPartial g y x c +
          sobelGyPartial g y x c * sobelGyPartial g y x c)) 0 255
      else g.pix y x c }

theorem newtonStep_pos (a m : α) (ha : 0 < a) (hm : 0 < m) :
    0 < newtonStep a m := by
  unfold newtonStep
  have hd : 0 < a / m := div_pos ha hm
  nlinarith

theorem newton_pos (a : α) (ha : 0 < a) :
    ∀ n, 0 < (fun m => newtonStep a m)^[n] a := by
  intro n
  induction n with
  | zero => simpa using ha
  | succ k ih =>
      rw [Function.iterate_succ_apply']
      exact newtonStep_pos a _ ha ih

theorem newtonStep_ge_255 (a m : α) (ha : (65025 : α) ≤ a) (hm : 0 < m) :
    (255 : α) ≤ newtonStep a m := by
  unfold newtonStep
  have h1 : 510 * m ≤ m * m + a := by nlinarith [sq_nonneg (m - 255)]
  have h2 : (510 : α) ≤ m + a / m := by
    rw [← sub_nonneg]
    have h3 : m + a / m - 510 = (m * m + a - 510 * m) / m := by
      field_simp
      ring
    rw [h3]
    apply div_nonneg _ hm.le
    linarith
  linarith

theorem newton_ge_255 (a : α) (ha : (65025 : α) ≤ a) :
    (255 : α) ≤ sobelMagnitude a := by
  have hapos : (0 : α) < a := lt_of_lt_of_le (by norm_num) ha
  unfold sobelMagnitude
  rw [if_pos hapos]
  rw [show (10 : ℕ) = 9 + 1 from rfl, Function.iterate_succ_apply']
  exact newtonStep_ge_255 a _ ha (newton_pos a hapos 9)

/-- A uniform 3 x 3 single-channel grid of value 255. -/
def uni255 : Image ℚ := ⟨3, 3, 1, fun _ _ _ => 255⟩

/-- C1 counterexample: on the uniform 255 grid the code stores 0 at the
border pixel (0, 0) because zeroBorders overwrites it, while the behavior
the claim describes (border computed with the partial zero-padded
neighborhood like an interior pixel) yields 255 there, since the partial
sums are gx = gy = 765 and the clamped magnitude saturates. -/
theorem sobel_zeroes_borders_counterexample :
    (sobelApply uni255).pix 0 0 0 = 0 ∧
    (sobelSpecApply uni255).pix 0 0 0 = 255 := by
  constructor
  · have hdims : 3 ≤ uni255.width ∧ 3 ≤ uni255.height := by decide
    unfold sobelApply
    rw [if_pos hdims]
    have hb : inBounds uni255 0 0 0 := by decide
    simp only [if_pos hb]
    simp
  · have hb : inBounds uni255 0 0 0 := by decide
    have hgx : sobelGxPartial uni255 0 0 0 = 765 := by
      unfold sobelGxPartial
      simp only [Finset.sum_range_succ, Finset.sum_range_zero]
      norm_num [okZ, uni255, matAt, sobelXmat]
    have hgy : sobelGyPartial uni255 0 0 0 = 765 := by
      unfold sobelGyPartial
      simp only [Finset.sum_range_succ, Finset.sum_range_zero]
      norm_num [okZ, uni255, matAt, sobelYmat]
    unfold sobelSpecApply
    simp only [if_pos hb]
    rw [hgx, hgy]
    have hsq : (765 : ℚ) * 765 + 765 * 765 = 1170450 := by norm_num
    rw [hsq]
    exact clamp_of_ge _ 0 255 (by norm_num)
      (newton_ge_255 (1170450 : ℚ) (by norm_num))

/-- C1 (amended): for grids of width and height at least 3,
SobelFilter::apply computes every interior pixel with the 3x3 masks (Newton
magnitude clamped to [0, 255]) and overwrites every border pixel (first or
last row or column) with zero in the separate zeroBorders step; border
pixels are not computed with a partial neighborhood. -/
theorem sobel_border_zero_interior_masks (g : Image α)
    (h3w : 3 ≤ g.width) (h3h : 3 ≤ g.height) (y x c : ℕ)
    (hb : inBounds g y x c) :
    ((y = 0 ∨ y = g.height - 1 ∨ x = 0 ∨ x = g.width - 1) →
      (sobelApply g).pix y x c = 0) ∧
    (1 ≤ y → y < g.height - 1 → 1 ≤ x → x < g.width - 1 →
      (sobelApply g).pix y x c =
        clamp (sobelMagnitude (sobelGx g y x c * sobelGx g y x c +
          sobelGy g y x c * sobelGy g y x c)) 0 255) := by
  unfold sobelApply
  rw [if_pos ⟨h3w, h3h⟩]
  constructor
  · intro hedge
    simp only [if_pos hb, if_pos hedge]
  · intro h1 h2 h3 h4
    have hnedge : ¬ (y = 0 ∨ y = g.height - 1 ∨ x = 0 ∨ x = g.width - 1) := by
      omega
    simp only [if_pos hb, if_neg hnedge]

theorem sobel_border_zero_interior_masks_witness :
    3 ≤ uni255.width ∧ 3 ≤ uni255.height ∧ inBounds uni255 0 1 0 ∧
    ((((0 : ℕ) = 0 ∨ (0 : ℕ) = uni255.height - 1 ∨ (1 : ℕ) = 0 ∨
        (1 : ℕ) = uni255.width - 1) → (sobelApply uni255).pix 0 1 0 = 0) ∧
      (1 ≤ (0 : ℕ) → (0 : ℕ) < uni255.height - 1 → 1 ≤ (1 : ℕ) →
        (1 : ℕ) < uni255.width - 1 →
        (sobelApply uni255).pix 0 1 0 =
          clamp (sobelMagnitude (sobelGx uni255 0 1 0 * sobelGx uni255 0 1 0 +
            sobelGy uni255 0 1 0 * sobelGy uni255 0 1 0)) 0 255)) :=
  ⟨by decide, by decide, by decide,
   sobel_border_zero_interior_masks uni255 (by decide) (by decide) 0 1 0
     (by decide)⟩

/-- The ConvolutionFilter constructor: throws invalid_argument when
kSize < 1 or kSize % 2 == 0, otherwise stores the size.  Shared by every
convolution-family filter (Mean, Gaussian, Median, Min, Max, morphology). -/
def mkConvolutionFilter (k : ℤ) : Option ℤ :=
  if k < 1 ∨ k % 2 = 0 then none else some k

/-- The CannyFilter constructor: throws invalid_argument when a threshold
is outside [0, 255] or when high <= low, otherwise stores both. -/
def mkCannyFilter (low high : ℚ) : Option (ℚ × ℚ) :=
  if low < 0 ∨ low > 255 ∨ high < 0 ∨ high > 255 then none
  else if high ≤ low then none
  else some (low, high)

/-- C7: parameter validation happens at construction: the convolution
family constructor succeeds exactly for odd kernel sizes at least 1, and
the Canny constructor succeeds exactly when 0 <= low < high <= 255; the
apply functions of the model are total and perform no parameter check. -/
theorem constructor_validation (k : ℤ) (low high : ℚ) :
    ((mkConvolutionFilter k).isSome ↔ (1 ≤ k ∧ k % 2 = 1)) ∧
    ((mkCannyFilter low high).isSome ↔
      (0 ≤ low ∧ low < high ∧ high ≤ 255)) := by
  constructor
  · unfold mkConvolutionFilter
    split
    · next h =>
        simp only [Option.isSome_none, Bool.false_eq_true, false_iff]
        omega
    · next h =>
        simp only [Option.isSome_some, true_iff]
        omega
  · unfold mkCannyFilter
    split
    · next h =>
        simp only [Option.isSome_none, Bool.false_eq_true, false_iff]
        intro ⟨h1, h2, h3⟩
        rcases h with h | h | h | h <;> linarith
    · next h =>
        push_neg at h
        obtain ⟨e1, e2, e3, e4⟩ := h
        split
        · next h2 =>
            simp only [Option.isSome_none, Bool.false_eq_true, false_iff]
            intro ⟨h1, h5, h6⟩
            linarith
        · next h2 =>
            push_neg at h2
            simp only [Option.isSome_some, true_iff]
            exact ⟨by linarith, h2, by linarith⟩

/-- The unnormalized Gaussian kernel entry of GaussianFilter::computeKernel
at signed offset (dy, dx): exp(-(dx*dx + dy*dy) / (2*sigma*sigma)). -/
noncomputable def gaussWeight (σ : ℝ) (dy dx : ℤ) : ℝ :=
  Real.exp (-(((dx : ℝ)) ^ 2 + ((dy : ℝ)) ^ 2) / (2 * σ * σ))

/-- The normalization total of GaussianFilter::computeKernel: sum of the
unnormalized entries over the k x k window. -/
noncomputable def gaussTotal (k : ℕ) (σ : ℝ) : ℝ :=
  ∑ dy ∈ Finset.range k, ∑ dx ∈ Finset.range k,
    gaussWeight σ ((dy : ℤ) - (k / 2 : ℕ)) ((dx : ℤ) - (k / 2 : ℕ))

/-- The normalized Gaussian kernel of GaussianFilter (division by the
total happens once at construction). -/
noncomputable def gaussKer (k : ℕ) (σ : ℝ) : ℤ → ℤ → ℝ :=
  fun dy dx => gaussWeight σ dy dx / gaussTotal k σ

/-- GaussianFilter::apply: the shared convolution loop with the
precomputed kernel. -/
noncomputable def gaussApply (g : Image ℝ) (k : ℕ) (σ : ℝ) : Image ℝ :=
  convApply g (k / 2) (gaussKer k σ)

/-- Sum of all weights of the Mean kernel over its k x k window. -/
def meanKernelSum (k : ℕ) : α :=
  ∑ i ∈ Finset.range k, ∑ j ∈ Finset.range k,
    meanKer (α := α) k ((i : ℤ) - (k / 2 : ℕ)) ((j : ℤ) - (k / 2 : ℕ))

/-- Sum of all weights of the Gaussian kernel over its k x k window. -/
noncomputable def gaussKernelSum (k : ℕ) (σ : ℝ) : ℝ :=
  ∑ dy ∈ Finset.range k, ∑ dx ∈ Finset.range k,
    gaussKer k σ ((dy : ℤ) - (k / 2 : ℕ)) ((dx : ℤ) - (k / 2 : ℕ))

theorem gaussTotal_pos (k : ℕ) (σ : ℝ) (hk : 1 ≤ k) : 0 < gaussTotal k σ := by
  unfold gaussTotal
  apply Finset.sum_pos
  · intro i _
    apply Finset.sum_pos
    · intro j _
      exact Real.exp_pos _
    · exact ⟨0, Finset.mem_range.mpr (by omega)⟩
  · exact ⟨0, Finset.mem_range.mpr (by omega)⟩

/-- C9: for every valid kernel size (odd, at least 1) and positive sigma,
the Mean kernel weights and the normalized Gaussian kernel weights each sum
to 1 within the 1e-9 tolerance (in exact real arithmetic the sums are
exactly 1). -/
theorem kernel_normalization (k : ℕ) (σ : ℝ) (hk1 : 1 ≤ k)
    (hodd : k % 2 = 1) (hσ : 0 < σ) :
    |meanKernelSum (α := ℝ) k - 1| ≤ 1 / 1000000000 ∧
    |gaussKernelSum k σ - 1| ≤ 1 / 1000000000 := by
  have hk0 : (k : ℝ) ≠ 0 := by positivity
  constructor
  · have hsum : meanKernelSum (α := ℝ) k = 1 := by
      unfold meanKernelSum meanKer
      rw [Finset.sum_const, Finset.sum_const]
      simp only [Finset.card_range, nsmul_eq_mul]
      field_simp
    rw [hsum]
    norm_num
  · have hsum : gaussKernelSum k σ = 1 := by
      unfold gaussKernelSum gaussKer
      have : ∀ dy ∈ Finset.range k,
          (∑ dx ∈ Finset.range k,
            gaussWeight σ ((dy : ℤ) - (k / 2 : ℕ)) ((dx : ℤ) - (k / 2 : ℕ)) /
              gaussTotal k σ) =
          (∑ dx ∈ Finset.range k,
            gaussWeight σ ((dy : ℤ) - (k / 2 : ℕ)) ((dx : ℤ) - (k / 2 : ℕ))) /
            gaussTotal k σ := by
        intro dy _
        rw [← Finset.sum_div]
      rw [Finset.sum_congr rfl this, ← Finset.sum_div]
      exact div_self (gaussTotal_pos k σ hk1).ne'
    rw [hsum]
    norm_num

theorem kernel_normalization_witness :
    1 ≤ 3 ∧ 3 % 2 = 1 ∧ (0 : ℝ) < 1 ∧
    (|meanKernelSum (α := ℝ) 3 - 1| ≤ 1 / 1000000000 ∧
      |gaussKernelSum 3 1 - 1| ≤ 1 / 1000000000) :=
  ⟨by norm_num, by norm_num, by norm_num,
   kernel_normalization 3 1 (by norm_num) (by norm_num) (by norm_num)⟩

/-- The atan2 of the C library, written with arctan: the angle of the
vector (x, y), in (-pi, pi], with atan2(0, 0) = 0. -/
noncomputable def atan2R (y x : ℝ) : ℝ :=
  if 0 < x then Real.arctan (y / x)
  else if x < 0 then
    (if 0 ≤ y then Real.arctan (y / x) + Real.pi
     else Real.arctan (y / x) - Real.pi)
  else
    (if 0 < y then Real.pi / 2 else if y < 0 then -(Real.pi / 2) else 0)

/-- Stage 1 of CannyFilter::apply: GaussianFilter(5, 1.4) in place. -/
noncomputable def cannySmooth (g : Image ℝ) : Image ℝ :=
  gaussApply g 5 1.4

/-- Horizontal Sobel gradient of stage 2 of CannyFilter::apply, computed on
the smoothed grid; note that the inner access temp[ny][nx * colors] always
reads channel 0, whatever the channel count. -/
noncomputable def cannyGradX (g : Image ℝ) (y x : ℕ) : ℝ :=
  ∑ dy ∈ Finset.range 3, ∑ dx ∈ Finset.range 3,
    (cannySmooth g).pix (y + dy - 1) (x + dx - 1) 0 * (matAt sobelXmat dy dx : ℝ)

/-- Vertical Sobel gradient of stage 2 of CannyFilter::apply. -/
noncomputable def cannyGradY (g : Image ℝ) (y x : ℕ) : ℝ :=
  ∑ dy ∈ Finset.range 3, ∑ dx ∈ Finset.range 3,
    (cannySmooth g).pix (y + dy - 1) (x + dx - 1) 0 * (matAt sobelYmat dy dx : ℝ)

/-- The gradient magnitude array of CannyFilter::apply: initialized to zero
everywhere, set to sqrt(gx*gx + gy*gy) on the interior pixels only. -/
noncomputable def cannyMag (g : Image ℝ) (y x : ℕ) : ℝ :=
  if 1 ≤ y ∧ y + 1 < g.height ∧ 1 ≤ x ∧ x + 1 < g.width then
    Real.sqrt (cannyGradX g y x * cannyGradX g y x +
      cannyGradY g y x * cannyGradY g y x)
  else 0

/-- The gradient direction array of CannyFilter::apply: atan2(gy, gx) on
interior pixels, zero elsewhere. -/
noncomputable def cannyDir (g : Image ℝ) (y x : ℕ) : ℝ :=
  if 1 ≤ y ∧ y + 1 < g.height ∧ 1 ≤ x ∧ x + 1 < g.width then
    atan2R (cannyGradY g y x) (cannyGradX g y x)
  else 0

/-- The quantization angle of stage 3: the direction in degrees, shifted
into [0, 180] when negative. -/
noncomputable def cannyAngle (g : Image ℝ) (y x : ℕ) : ℝ :=
  if cannyDir g y x * 180 / Real.pi < 0 then
    cannyDir g y x * 180 / Real.pi + 180
  else cannyDir g y x * 180 / Real.pi

/-- The two gradient neighbors along the quantized direction of stage 3. -/
noncomputable def cannyNbrs (g : Image ℝ) (y x : ℕ) : ℝ × ℝ :=
  if (0 ≤ cannyAngle g y x ∧ cannyAngle g y x < 22.5) ∨
      (157.5 ≤ cannyAngle g y x ∧ cannyAngle g y x ≤ 180) then
    (cannyMag g y (x - 1), cannyMag g y (x + 1))
  else if 22.5 ≤ cannyAngle g y x ∧ cannyAngle g y x < 67.5 then
    (cannyMag g (y - 1) (x + 1), cannyMag g (y + 1) (x - 1))
  else if 67.5 ≤ cannyAngle g y x ∧ cannyAngle g y x < 112.5 then
    (cannyMag g (y - 1) x, cannyMag g (y + 1) x)
  else
    (cannyMag g (y - 1) (x - 1), cannyMag g (y + 1) (x + 1))

/-- Stage 3 of CannyFilter::apply, non-maximum suppression: keep the
magnitude only when it is at least both neighbors along the gradient
direction; pixels outside the interior stay at the zero initialization. -/
noncomputable def cannySuppressed (g : Image ℝ) (y x : ℕ) : ℝ :=
  if 1 ≤ y ∧ y + 1 < g.height ∧ 1 ≤ x ∧ x + 1 < g.width then
    (if (cannyNbrs g y x).1 ≤ cannyMag g y x ∧
        (cannyNbrs g y x).2 ≤ cannyMag g y x then
      cannyMag g y x
    else 0)
  else 0

/-- The strong-neighbor search of stage 4 (hysteresis): some 8-connected
in-bounds neighbor has a suppressed value at least the high threshold. -/
noncomputable def cannyStrong (g : Image ℝ) (high : ℝ) (y x : ℕ) : Prop :=
  ∃ dy ∈ Finset.range 3, ∃ dx ∈ Finset.range 3,
    okZ g ((y : ℤ) + dy - 1) ((x : ℤ) + dx - 1) ∧
    high ≤ cannySuppressed g ((y : ℤ) + dy - 1).toNat ((x : ℤ) + dx - 1).toNat

noncomputable instance (g : Image ℝ) (high : ℝ) (y x : ℕ) :
    Decidable (cannyStrong g high y x) := by
  unfold cannyStrong; infer_instance

/-- CannyFilter::apply with thresholds (low, high): smooth, gradient,
suppression, then hysteresis writes every in-bounds cell of every channel
with 255 or 0; cells outside the raster keep the value left by the only
stage that wrote the raster before, the Gaussian smoothing. -/
noncomputable def cannyApply (low high : ℝ) (g : Image ℝ) : Image ℝ :=
  { g with pix := fun y x c =>
      if inBounds g y x c then
        (if high ≤ cannySuppressed g y x then 255
         else if cannySuppressed g y x < low then 0
         else if cannyStrong g high y x then 255 else 0)
      else (cannySmooth g).pix y x c }

@[simp] theorem cannyApply_width (low high : ℝ) (g : Image ℝ) :
    (cannyApply low high g).width = g.width := rfl

@[simp] theorem cannyApply_height (low high : ℝ) (g : Image ℝ) :
    (cannyApply low high g).height = g.height := rfl

@[simp] theorem cannyApply_colors (low high : ℝ) (g : Image ℝ) :
    (cannyApply low high g).colors = g.colors := rfl

theorem convApply_rangeOK (g : Image α) (r : ℕ) (ker : ℤ → ℤ → α) :
    rangeOK (convApply g r ker) 0 255 := by
  intro y hy x hx c hc
  simp only [convApply_height, convApply_width, convApply_colors] at hy hx hc
  show 0 ≤ (convApply g r ker).pix y x c ∧ (convApply g r ker).pix y x c ≤ 255
  unfold convApply
  simp only [if_pos (show inBounds g y x c from ⟨hy, hx, hc⟩)]
  exact clamp_mem _ 0 255 (by norm_num)

theorem medianApply_rangeOK (g : Image α) (r : ℕ) (hg : rangeOK g 0 255) :
    rangeOK (medianApply g r) 0 255 := by
  intro y hy x hx c hc
  simp only [medianApply_height, medianApply_width, medianApply_colors]
    at hy hx hc
  have hb : inBounds g y x c := ⟨hy, hx, hc⟩
  show 0 ≤ (medianApply g r).pix y x c ∧ (medianApply g r).pix y x c ≤ 255
  have hpix : (medianApply g r).pix y x c =
      ((neighborVals g r y x c).insertionSort (· ≤ ·)).getD
        ((neighborVals g r y x c).length / 2) 0 :=
    median_pix_sorted g r y x c hb
  rw [hpix]
  set vals := neighborVals g r y x c with hvals
  have hne : vals ≠ [] := neighborVals_ne_nil g r hb
  have hlen : 1 ≤ vals.length := List.length_pos.mpr hne
  have hslen : (vals.insertionSort (· ≤ ·)).length = vals.length :=
    (List.perm_insertionSort _ vals).length_eq
  have hmlt : vals.length / 2 < (vals.insertionSort (· ≤ ·)).length := by
    omega
  have hmem : (vals.insertionSort (· ≤ ·)).getD (vals.length / 2) 0 ∈
      vals := by
    rw [List.getD_eq_getElem _ 0 hmlt]
    exact (List.perm_insertionSort _ vals).mem_iff.mp
      (List.getElem_mem hmlt)
  obtain ⟨ny, nx, h1, h2, heq⟩ := mem_neighborVals_pix g r hmem
  rw [heq]
  exact hg ny h1 nx h2 c hc

theorem sobelApply_rangeOK (g : Image α) (hg : rangeOK g 0 255) :
    rangeOK (sobelApply g) 0 255 := by
  unfold sobelApply
  split
  · intro y hy x hx c hc
    show 0 ≤ _ ∧ _ ≤ (255 : α)
    simp only [if_pos (show inBounds g y x c from ⟨hy, hx, hc⟩)]
    split
    · norm_num
    · exact clamp_mem _ 0 255 (by norm_num)
  · exact hg

theorem cannyApply_rangeOK (low high : ℝ) (g : Image ℝ) :
    rangeOK (cannyApply low high g) 0 255 := by
  intro y hy x hx c hc
  simp only [cannyApply_height, cannyApply_width, cannyApply_colors]
    at hy hx hc
  show 0 ≤ (cannyApply low high g).pix y x c ∧
    (cannyApply low high g).pix y x c ≤ 255
  unfold cannyApply
  simp only [if_pos (show inBounds g y x c from ⟨hy, hx, hc⟩)]
  split_ifs <;> norm_num

/-- C6: with all input samples in [0, 255], every filter of the family
keeps all samples in [0, 255]: the convolution filters clamp, erosion and
dilatation stay within the lattice bounds 255 and 0, the median picks one
of the collected input values, Sobel writes zero borders and clamped
magnitudes, and Canny writes only 0 or 255. -/
theorem range_preservation (g : Image ℝ) (r : ℕ) (ker : ℤ → ℤ → ℝ)
    (B : SElem) (low high : ℝ) (hg : rangeOK g 0 255) :
    rangeOK (convApply g r ker) 0 255 ∧
    rangeOK (erosionApply g B) 0 255 ∧
    rangeOK (dilatationApply g B) 0 255 ∧
    rangeOK (openingApply g B) 0 255 ∧
    rangeOK (closingApply g B) 0 255 ∧
    rangeOK (medianApply g r) 0 255 ∧
    rangeOK (sobelApply g) 0 255 ∧
    rangeOK (cannyApply low high g) 0 255 :=
  ⟨convApply_rangeOK g r ker, erosion_rangeOK g B hg,
   dilatation_rangeOK g B hg,
   dilatation_rangeOK _ B (erosion_rangeOK g B hg),
   erosion_rangeOK _ B (dilatation_rangeOK g B hg),
   medianApply_rangeOK g r hg, sobelApply_rangeOK g hg,
   cannyApply_rangeOK low high g⟩

/-- The all-zero single-pixel real grid used by the real-valued witnesses. -/
def zeroImg : Image ℝ := ⟨1, 1, 1, fun _ _ _ => 0⟩

theorem zeroImg_rangeOK : rangeOK zeroImg 0 255 := by
  intro y _ x _ c _
  show (0 : ℝ) ≤ 0 ∧ (0 : ℝ) ≤ 255
  norm_num

theorem range_preservation_witness :
    rangeOK zeroImg 0 255 ∧
    (rangeOK (convApply zeroImg 1 (fun _ _ => 0)) 0 255 ∧
     rangeOK (erosionApply zeroImg createCross) 0 255 ∧
     rangeOK (dilatationApply zeroImg createCross) 0 255 ∧
     rangeOK (openingApply zeroImg createCross) 0 255 ∧
     rangeOK (closingApply zeroImg createCross) 0 255 ∧
     rangeOK (medianApply zeroImg 1) 0 255 ∧
     rangeOK (sobelApply zeroImg) 0 255 ∧
     rangeOK (cannyApply 50 150 zeroImg) 0 255) :=
  ⟨zeroImg_rangeOK,
   range_preservation zeroImg 1 (fun _ _ => 0) createCross 50 150
     zeroImg_rangeOK⟩

theorem convApply_frame (g : Image α) (r : ℕ) (ker : ℤ → ℤ → α)
    (y x c : ℕ) (h : ¬ inBounds g y x c) :
    (convApply g r ker).pix y x c = g.pix y x c := by
  unfold convApply
  simp only [if_neg h]

theorem morphApply_frame (g : Image α) (B : SElem) (init : α)
    (comp : α → α → α) (y x c : ℕ) (h : ¬ inBounds g y x c) :
    (morphApply g B init comp).pix y x c = g.pix y x c := by
  unfold morphApply
  simp only [if_neg h]

theorem medianApply_frame (g : Image α) (r : ℕ) (y x c : ℕ)
    (h : ¬ inBounds g y x c) :
    (medianApply g r).pix y x c = g.pix y x c := by
  unfold medianApply
  simp only [if_neg h]

theorem sobelApply_frame (g : Image α) (y x c : ℕ)
    (h : ¬ inBounds g y x c) :
    (sobelApply g).pix y x c = g.pix y x c := by
  unfold sobelApply
  split
  · simp only [if_neg h]
  · rfl

theorem sobelApply_dims (g : Image α) :
    (sobelApply g).width = g.width ∧ (sobelApply g).height = g.height ∧
    (sobelApply g).colors = g.colors := by
  unfold sobelApply
  split <;> exact ⟨rfl, rfl, rfl⟩

theorem cannyApply_frame (low high : ℝ) (g : Image ℝ) (y x c : ℕ)
    (h : ¬ inBounds g y x c) :
    (cannyApply low high g).pix y x c = g.pix y x c := by
  unfold cannyApply
  simp only [if_neg h]
  unfold cannySmooth gaussApply
  exact convApply_frame g 2 _ y x c h

/-- C10: every filter of the family keeps the width, height and channel
count of the grid unchanged and never writes a cell outside the raster:
pixels whose index is not in bounds keep exactly the original value. -/
theorem frame_preservation (g : Image ℝ) (r : ℕ) (ker : ℤ → ℤ → ℝ)
    (B : SElem) (init : ℝ) (comp : ℝ → ℝ → ℝ) (low high : ℝ) :
    ((convApply g r ker).width = g.width ∧
     (convApply g r ker).height = g.height ∧
     (convApply g r ker).colors = g.colors ∧
     (morphApply g B init comp).width = g.width ∧
     (morphApply g B init comp).height = g.height ∧
     (morphApply g B init comp).colors = g.colors ∧
     (medianApply g r).width = g.width ∧
     (medianApply g r).height = g.height ∧
     (medianApply g r).colors = g.colors ∧
     (sobelApply g).width = g.width ∧
     (sobelApply g).height = g.height ∧
     (sobelApply g).colors = g.colors ∧
     (cannyApply low high g).width = g.width ∧
     (cannyApply low high g).height = g.height ∧
     (cannyApply low high g).colors = g.colors) ∧
    (∀ y x c, ¬ inBounds g y x c →
      ((convApply g r ker).pix y x c = g.pix y x c ∧
       (morphApply g B init comp).pix y x c = g.pix y x c ∧
       (medianApply g r).pix y x c = g.pix y x c ∧
       (sobelApply g).pix y x c = g.pix y x c ∧
       (cannyApply low high g).pix y x c = g.pix y x c)) := by
  obtain ⟨s1, s2, s3⟩ := sobelApply_dims g
  refine ⟨⟨rfl, rfl, rfl, rfl, rfl, rfl, rfl, rfl, rfl, s1, s2, s3,
    rfl, rfl, rfl⟩, ?_⟩
  intro y x c h
  exact ⟨convApply_frame g r ker y x c h,
    morphApply_frame g B init comp y x c h,
    medianApply_frame g r y x c h,
    sobelApply_frame g y x c h,
    cannyApply_frame low high g y x c h⟩

theorem frame_preservation_witness :
    ¬ inBounds zeroImg 1 0 0 ∧
    ((convApply zeroImg 1 (fun _ _ => 0)).pix 1 0 0 = zeroImg.pix 1 0 0 ∧
     (morphApply zeroImg createCross 0 (fun a _ => a)).pix 1 0 0 =
       zeroImg.pix 1 0 0 ∧
     (medianApply zeroImg 1).pix 1 0 0 = zeroImg.pix 1 0 0 ∧
     (sobelApply zeroImg).pix 1 0 0 = zeroImg.pix 1 0 0 ∧
     (cannyApply 50 150 zeroImg).pix 1 0 0 = zeroImg.pix 1 0 0) :=
  ⟨by decide,
   (frame_preservation zeroImg 1 (fun _ _ => 0) createCross 0
     (fun a _ => a) 50 150).2 1 0 0 (by decide)⟩

/-- Channel-c agreement of two same-shaped grids on all in-bounds pixels. -/
def agreeOnChannel (f g : Image α) (c : ℕ) : Prop :=
  ∀ y, y < f.height → ∀ x, x < f.width → f.pix y x c = g.pix y x c

instance (f g : Image α) (c : ℕ) : Decidable (agreeOnChannel f g c) := by
  unfold agreeOnChannel; infer_instance

theorem convPix_congr_chan (f g : Image α) (hw : f.width = g.width)
    (hh : f.height = g.height) (r : ℕ) (ker : ℤ → ℤ → α) (y x c : ℕ)
    (hagree : agreeOnChannel f g c) :
    convPix f r ker y x c = convPix g r ker y x c := by
  unfold convPix
  refine Finset.sum_congr rfl (fun dy _ => ?_)
  refine Finset.sum_congr rfl (fun dx _ => ?_)
  by_cases hok : okZ f ((y : ℤ) + dy - r) ((x : ℤ) + dx - r)
  · rw [if_pos hok, if_pos (okZ_of_dims f g hw hh hok)]
    obtain ⟨h1, h2⟩ := okZ_toNat f hok
    rw [hagree _ h1 _ h2]
  · rw [if_neg hok, if_neg (fun hc => hok (okZ_of_dims g f hw.symm hh.symm hc))]

theorem morphVals_congr_chan (f g : Image α) (B : SElem) (y x c : ℕ)
    (hw : f.width = g.width) (hh : f.height = g.height)
    (hagree : agreeOnChannel f g c) :
    morphVals f B y x c = morphVals g B y x c := by
  unfold morphVals
  refine List.filterMap_congr (fun off _ => ?_)
  by_cases hok : okZ f ((y : ℤ) + off.2) ((x : ℤ) + off.1)
  · rw [if_pos hok, if_pos (okZ_of_dims f g hw hh hok)]
    obtain ⟨h1, h2⟩ := okZ_toNat f hok
    rw [hagree _ h1 _ h2]
  · rw [if_neg hok, if_neg (fun hc => hok (okZ_of_dims g f hw.symm hh.symm hc))]

theorem neighborVals_congr_chan (f g : Image α) (r : ℕ) (y x c : ℕ)
    (hw : f.width = g.width) (hh : f.height = g.height)
    (hagree : agreeOnChannel f g c) :
    neighborVals f r y x c = neighborVals g r y x c := by
  unfold neighborVals
  have hfun : (fun dy : ℕ => (List.range (2 * r + 1)).filterMap
      (fun dx : ℕ =>
        if okZ f ((y : ℤ) + (dy : ℤ) - r) ((x : ℤ) + (dx : ℤ) - r) then
          some (f.pix ((y : ℤ) + (dy : ℤ) - r).toNat
            ((x : ℤ) + (dx : ℤ) - r).toNat c)
        else none)) =
      (fun dy : ℕ => (List.range (2 * r + 1)).filterMap
      (fun dx : ℕ =>
        if okZ g ((y : ℤ) + (dy : ℤ) - r) ((x : ℤ) + (dx : ℤ) - r) then
          some (g.pix ((y : ℤ) + (dy : ℤ) - r).toNat
            ((x : ℤ) + (dx : ℤ) - r).toNat c)
        else none)) := by
    funext dy
    refine List.filterMap_congr (fun dx _ => ?_)
    by_cases hok : okZ f ((y : ℤ) + (dy : ℤ) - r) ((x : ℤ) + (dx : ℤ) - r)
    · rw [if_pos hok, if_pos (okZ_of_dims f g hw hh hok)]
      obtain ⟨h1, h2⟩ := okZ_toNat f hok
      rw [hagree _ h1 _ h2]
    · rw [if_neg hok,
        if_neg (fun hc => hok (okZ_of_dims g f hw.symm hh.symm hc))]
  rw [hfun]

theorem sobelG_congr_chan (f g : Image α) (y x c : ℕ)
    (hy1 : 1 ≤ y) (hy2 : y + 1 < f.height) (hx1 : 1 ≤ x)
    (hx2 : x + 1 < f.width) (hagree : agreeOnChannel f g c) :
    sobelGx f y x c = sobelGx g y x c ∧ sobelGy f y x c = sobelGy g y x c := by
  constructor <;>
  · simp only [sobelGx, sobelGy]
    refine Finset.sum_congr rfl (fun dy hdy => ?_)
    refine Finset.sum_congr rfl (fun dx hdx => ?_)
    have hdy3 : dy < 3 := Finset.mem_range.mp hdy
    have hdx3 : dx < 3 := Finset.mem_range.mp hdx
    rw [hagree _ (by omega) _ (by omega)]

/-- C5 (amended): for the per-channel filters (the shared convolution
loop, so Mean and Gaussian, the morphological operations, the median and
Sobel) each output channel depends only on the same input channel: two
same-shaped grids that agree on channel c produce outputs that agree on
channel c, whatever the other channels hold.  CannyFilter is the
exception: it derives every output channel from input channel 0. -/
theorem per_channel_independence (f g : Image α) (hw : f.width = g.width)
    (hh : f.height = g.height) (hc : f.colors = g.colors) (c : ℕ)
    (hagree : agreeOnChannel f g c) (r : ℕ) (ker : ℤ → ℤ → α) (B : SElem)
    (y x : ℕ) (hy : y < f.height) (hx : x < f.width) (hcc : c < f.colors) :
    (convApply f r ker).pix y x c = (convApply g r ker).pix y x c ∧
    (erosionApply f B).pix y x c = (erosionApply g B).pix y x c ∧
    (dilatationApply f B).pix y x c = (dilatationApply g B).pix y x c ∧
    (medianApply f r).pix y x c = (medianApply g r).pix y x c ∧
    (sobelApply f).pix y x c = (sobelApply g).pix y x c := by
  have hbf : inBounds f y x c := ⟨hy, hx, hcc⟩
  have hbg : inBounds g y x c := ⟨hh ▸ hy, hw ▸ hx, hc ▸ hcc⟩
  refine ⟨?_, ?_, ?_, ?_, ?_⟩
  · unfold convApply
    simp only [if_pos hbf, if_pos hbg]
    rw [convPix_congr_chan f g hw hh r ker y x c hagree]
  · rw [erosion_pix_eq f B y x c hbf, erosion_pix_eq g B y x c hbg,
      morphVals_congr_chan f g B y x c hw hh hagree]
  · rw [dilatation_pix_eq f B y x c hbf, dilatation_pix_eq g B y x c hbg,
      morphVals_congr_chan f g B y x c hw hh hagree]
  · rw [median_pix_sorted f r y x c hbf, median_pix_sorted g r y x c hbg,
      neighborVals_congr_chan f g r y x c hw hh hagree]
  · unfold sobelApply
    by_cases hdims : 3 ≤ f.width ∧ 3 ≤ f.height
    · rw [if_pos hdims, if_pos (show 3 ≤ g.width ∧ 3 ≤ g.height from
        ⟨hw ▸ hdims.1, hh ▸ hdims.2⟩)]
      simp only [if_pos hbf, if_pos hbg]
      by_cases hedge : y = 0 ∨ y = f.height - 1 ∨ x = 0 ∨ x = f.width - 1
      · rw [if_pos hedge, if_pos (show y = 0 ∨ y = g.height - 1 ∨ x = 0 ∨
          x = g.width - 1 from by rw [← hw, ← hh]; exact hedge)]
      · rw [if_neg hedge, if_neg (show ¬ (y = 0 ∨ y = g.height - 1 ∨ x = 0 ∨
          x = g.width - 1) from by rw [← hw, ← hh]; exact hedge)]
        obtain ⟨hgx, hgy⟩ := sobelG_congr_chan f g y x c (by omega)
          (by omega) (by omega) (by omega) hagree
        rw [hgx, hgy]
    · rw [if_neg hdims, if_neg (show ¬ (3 ≤ g.width ∧ 3 ≤ g.height) from
        by rw [← hw, ← hh]; exact hdims)]
      exact hagree _ hy _ hx

theorem per_channel_independence_witness :
    agreeOnChannel zeroImg zeroImg 0 ∧
    ((convApply zeroImg 1 (fun _ _ => 0)).pix 0 0 0 =
        (convApply zeroImg 1 (fun _ _ => 0)).pix 0 0 0 ∧
      (erosionApply zeroImg createCross).pix 0 0 0 =
        (erosionApply zeroImg createCross).pix 0 0 0 ∧
      (dilatationApply zeroImg createCross).pix 0 0 0 =
        (dilatationApply zeroImg createCross).pix 0 0 0 ∧
      (medianApply zeroImg 1).pix 0 0 0 = (medianApply zeroImg 1).pix 0 0 0 ∧
      (sobelApply zeroImg).pix 0 0 0 = (sobelApply zeroImg).pix 0 0 0) :=
  ⟨fun _ _ _ _ => rfl,
   per_channel_independence zeroImg zeroImg rfl rfl rfl 0
     (fun _ _ _ _ => rfl) 1 (fun _ _ => 0) createCross 0 0 (by decide)
     (by decide) (by decide)⟩

/-- The base Gaussian factor for sigma = 1.4: exp(-1 / (2 * 1.4 * 1.4)),
so every 5 x 5 kernel entry is a power of it. -/
noncomputable def tE : ℝ := Real.exp (-(25 / 98 : ℝ))

theorem tE_pos : (0 : ℝ) < tE := Real.exp_pos _

theorem tE_lb : (73 / 98 : ℝ) ≤ tE := by
  have h := Real.add_one_le_exp (-(25 / 98 : ℝ))
  unfold tE
  linarith

theorem tE_ub : tE ≤ (98 / 123 : ℝ) := by
  have h := Real.add_one_le_exp ((25 / 98 : ℝ))
  have hpos : (0 : ℝ) < Real.exp (25 / 98) := Real.exp_pos _
  have h2 : (123 / 98 : ℝ) ≤ Real.exp (25 / 98) := by linarith
  have h3 : tE = (Real.exp (25 / 98))⁻¹ := by
    unfold tE
    rw [← Real.exp_neg]
  rw [h3]
  calc (Real.exp (25 / 98))⁻¹ ≤ ((123 : ℝ) / 98)⁻¹ :=
        inv_anti₀ (by norm_num) h2
    _ = 98 / 123 := by norm_num

theorem gaussWeight_pow (dy dx : ℤ) :
    gaussWeight (7 / 5) dy dx = tE ^ (dx * dx + dy * dy).toNat := by
  unfold gaussWeight tE
  rw [← Real.exp_nat_mul]
  congr 1
  have hnn : (0 : ℤ) ≤ dx * dx + dy * dy := by
    have h1 : (0 : ℤ) ≤ dx * dx := mul_self_nonneg dx
    have h2 : (0 : ℤ) ≤ dy * dy := mul_self_nonneg dy
    linarith
  have h3 : (((dx * dx + dy * dy).toNat : ℕ) : ℤ) = dx * dx + dy * dy :=
    Int.toNat_of_nonneg hnn
  have h4 : (((dx * dx + dy * dy).toNat : ℕ) : ℝ) =
      (dx : ℝ) * dx + (dy : ℝ) * dy := by
    exact_mod_cast congrArg (fun z : ℤ => (z : ℝ)) h3
  rw [h4]
  ring_nf

theorem gaussTotal_5 :
    gaussTotal 5 (7 / 5) = (1 + 2 * tE + 2 * tE ^ 4) ^ 2 := by
  unfold gaussTotal
  simp only [Finset.sum_range_succ, Finset.sum_range_zero, gaussWeight_pow]
  norm_num
  simp only [show Int.toNat 8 = 8 from rfl, show Int.toNat 5 = 5 from rfl,
    show Int.toNat 4 = 4 from rfl, show Int.toNat 2 = 2 from rfl,
    show Int.toNat 1 = 1 from rfl, show Int.toNat 0 = 0 from rfl]
  ring

/-- A 4 x 4 grid, uniform value 255 on every channel. -/
def u4c (cols : ℕ) : Image ℝ := ⟨4, 4, cols, fun _ _ _ => 255⟩

/-- Sum of one column (or row) of unnormalized Gaussian weights over a
full 5-entry window. -/
noncomputable def colU : ℝ := 1 + 2 * tE + 2 * tE ^ 4

/-- Truncated column sums of the 4-wide grid: border columns lose one
entry. -/
noncomputable def cX4 : ℕ → ℝ := fun i =>
  if i = 0 then 1 + tE + tE ^ 4 else 1 + 2 * tE + tE ^ 4

theorem colU_pos : (0 : ℝ) < colU := by
  unfold colU
  nlinarith [tE_pos, pow_pos tE_pos 4]

theorem cX4_pos (i : ℕ) : 0 < cX4 i := by
  unfold cX4
  split <;> nlinarith [tE_pos, pow_pos tE_pos 4]

theorem cX4_le (i : ℕ) : cX4 i ≤ colU := by
  unfold cX4 colU
  split <;> nlinarith [tE_pos, pow_pos tE_pos 4]

set_option maxHeartbeats 2000000 in
theorem convPix_u4c (cols c y x : ℕ) (hy : y < 3) (hx : x < 3) :
    convPix (u4c cols) 2 (gaussKer 5 1.4) y x c =
      255 * (cX4 x * cX4 y) / colU ^ 2 := by
  have hU0 : (0 : ℝ) < colU := colU_pos
  interval_cases y <;> interval_cases x <;>
  · simp only [convPix, Finset.sum_range_succ, Finset.sum_range_zero]
    norm_num [okZ, u4c]
    simp only [gaussKer, gaussTotal_5, gaussWeight_pow]
    norm_num [cX4]
    try simp only [show Int.toNat 8 = 8 from rfl, show Int.toNat 5 = 5 from rfl,
      show Int.toNat 4 = 4 from rfl, show Int.toNat 2 = 2 from rfl,
      show Int.toNat 1 = 1 from rfl, show Int.toNat 0 = 0 from rfl]
    unfold colU
    field_simp
    ring

theorem cannySmooth_u4c (cols c y x : ℕ) (hy : y < 3) (hx : x < 3)
    (hc : c < cols) :
    (cannySmooth (u4c cols)).pix y x c = 255 * (cX4 x * cX4 y) / colU ^ 2 := by
  have hU0 : (0 : ℝ) < colU := colU_pos
  have hb : inBounds (u4c cols) y x c :=
    ⟨show y < 4 by omega, show x < 4 by omega, hc⟩
  unfold cannySmooth gaussApply convApply
  simp only [if_pos hb]
  show clamp (convPix (u4c cols) 2 (gaussKer 5 1.4) y x c) 0 255 = _
  rw [convPix_u4c cols c y x hy hx]
  apply clamp_of_le
  · apply div_nonneg
    · nlinarith [cX4_pos x, cX4_pos y]
    · positivity
  · rw [div_le_iff₀ (by positivity)]
    have h1 : cX4 x * cX4 y ≤ colU * colU :=
      mul_le_mul (cX4_le x) (cX4_le y) (cX4_pos y).le colU_pos.le
    nlinarith [h1, colU_pos]

/-- The interior gradient value of the smoothed uniform-255 4 x 4 grid. -/
noncomputable def mVal : ℝ := 255 * tE * (4 + 7 * tE + 4 * tE ^ 4) / colU ^ 2

theorem cannyGrad_u4c (cols : ℕ) (hc : 0 < cols) :
    cannyGradX (u4c cols) 1 1 = mVal ∧ cannyGradY (u4c cols) 1 1 = mVal := by
  have hU0 : (0 : ℝ) < colU := colU_pos
  constructor
  · simp only [cannyGradX, Finset.sum_range_succ, Finset.sum_range_zero]
    norm_num [matAt, sobelXmat, List.getD_cons_zero, List.getD_cons_succ]
    rw [cannySmooth_u4c cols 0 0 0 (by norm_num) (by norm_num) hc,
      cannySmooth_u4c cols 0 0 2 (by norm_num) (by norm_num) hc,
      cannySmooth_u4c cols 0 1 0 (by norm_num) (by norm_num) hc,
      cannySmooth_u4c cols 0 1 2 (by norm_num) (by norm_num) hc,
      cannySmooth_u4c cols 0 2 0 (by norm_num) (by norm_num) hc,
      cannySmooth_u4c cols 0 2 2 (by norm_num) (by norm_num) hc]
    unfold mVal cX4 colU
    norm_num
    field_simp
    ring
  · simp only [cannyGradY, Finset.sum_range_succ, Finset.sum_range_zero]
    norm_num [matAt, sobelYmat, List.getD_cons_zero, List.getD_cons_succ]
    rw [cannySmooth_u4c cols 0 0 0 (by norm_num) (by norm_num) hc,
      cannySmooth_u4c cols 0 0 1 (by norm_num) (by norm_num) hc,
      cannySmooth_u4c cols 0 0 2 (by norm_num) (by norm_num) hc,
      cannySmooth_u4c cols 0 2 0 (by norm_num) (by norm_num) hc,
      cannySmooth_u4c cols 0 2 1 (by norm_num) (by norm_num) hc,
      cannySmooth_u4c cols 0 2 2 (by norm_num) (by norm_num) hc]
    unfold mVal cX4 colU
    norm_num
    field_simp
    ring

theorem mVal_pos : (0 : ℝ) < mVal := by
  unfold mVal
  apply div_pos
  · nlinarith [tE_pos, pow_pos tE_pos 4]
  · exact pow_pos colU_pos 2

theorem mVal_ge : (107 : ℝ) ≤ mVal := by
  have h0 := tE_pos
  have h1 := tE_lb
  have h2 := tE_ub
  have h4 : tE ^ 4 ≤ (98 / 123 : ℝ) ^ 4 := pow_le_pow_left₀ h0.le h2 4
  have h40 : (0 : ℝ) ≤ tE ^ 4 := by positivity
  have hcU : colU ≤ 17 / 5 := by
    unfold colU
    nlinarith [h2, h4]
  have hnum : (1750 : ℝ) ≤ 255 * tE * (4 + 7 * tE + 4 * tE ^ 4) := by
    nlinarith [h1, sq_nonneg (tE - 73 / 98), mul_nonneg h0.le h40]
  unfold mVal
  rw [le_div_iff₀ (pow_pos colU_pos 2)]
  have hsq : colU ^ 2 ≤ (17 / 5 : ℝ) ^ 2 :=
    pow_le_pow_left₀ colU_pos.le hcU 2
  nlinarith [hnum, hsq]

theorem cannyMag_u4c (cols : ℕ) (hc : 0 < cols) :
    cannyMag (u4c cols) 1 1 = Real.sqrt (mVal * mVal + mVal * mVal) := by
  unfold cannyMag
  rw [if_pos (show (1 : ℕ) ≤ 1 ∧ 1 + 1 < (u4c cols).height ∧ 1 ≤ 1 ∧
    1 + 1 < (u4c cols).width from
    ⟨le_refl 1, show (2 : ℕ) < 4 by norm_num, le_refl 1,
     show (2 : ℕ) < 4 by norm_num⟩)]
  rw [(cannyGrad_u4c cols hc).1, (cannyGrad_u4c cols hc).2]

theorem mag150_u4c (cols : ℕ) (hc : 0 < cols) :
    (150 : ℝ) ≤ cannyMag (u4c cols) 1 1 := by
  rw [cannyMag_u4c cols hc]
  have hm := mVal_ge
  rw [show (150 : ℝ) = Real.sqrt (150 ^ 2) from
    (Real.sqrt_sq (by norm_num)).symm]
  apply Real.sqrt_le_sqrt
  nlinarith [hm, sq_nonneg (mVal - 107)]

theorem cannyDir_u4c (cols : ℕ) (hc : 0 < cols) :
    cannyDir (u4c cols) 1 1 = Real.pi / 4 := by
  unfold cannyDir
  rw [if_pos (show (1 : ℕ) ≤ 1 ∧ 1 + 1 < (u4c cols).height ∧ 1 ≤ 1 ∧
    1 + 1 < (u4c cols).width from
    ⟨le_refl 1, show (2 : ℕ) < 4 by norm_num, le_refl 1,
     show (2 : ℕ) < 4 by norm_num⟩)]
  rw [(cannyGrad_u4c cols hc).1, (cannyGrad_u4c cols hc).2]
  unfold atan2R
  rw [if_pos mVal_pos, div_self mVal_pos.ne']
  exact Real.arctan_one

theorem cannyAngle_u4c (cols : ℕ) (hc : 0 < cols) :
    cannyAngle (u4c cols) 1 1 = 45 := by
  unfold cannyAngle
  rw [cannyDir_u4c cols hc]
  have h45 : Real.pi / 4 * 180 / Real.pi = 45 := by
    have hpi : Real.pi ≠ 0 := Real.pi_ne_zero
    field_simp
    ring
  rw [h45]
  norm_num

theorem cannyMag_nonneg (g : Image ℝ) (y x : ℕ) : 0 ≤ cannyMag g y x := by
  unfold cannyMag
  split
  · exact Real.sqrt_nonneg _
  · exact le_refl 0

theorem cannyNbrs_u4c (cols : ℕ) (hc : 0 < cols) :
    cannyNbrs (u4c cols) 1 1 = (0, 0) := by
  unfold cannyNbrs
  rw [cannyAngle_u4c cols hc]
  rw [if_neg (by norm_num), if_pos (by norm_num)]
  have h1 : cannyMag (u4c cols) 0 2 = 0 := by
    unfold cannyMag
    rw [if_neg (by rintro ⟨h, -⟩; omega)]
  have h2 : cannyMag (u4c cols) 2 0 = 0 := by
    unfold cannyMag
    rw [if_neg (by rintro ⟨-, -, h, -⟩; omega)]
  show (cannyMag (u4c cols) 0 2, cannyMag (u4c cols) 2 0) = ((0 : ℝ), 0)
  rw [h1, h2]

theorem cannySuppressed_u4c (cols : ℕ) (hc : 0 < cols) :
    cannySuppressed (u4c cols) 1 1 = cannyMag (u4c cols) 1 1 := by
  unfold cannySuppressed
  rw [if_pos (show (1 : ℕ) ≤ 1 ∧ 1 + 1 < (u4c cols).height ∧ 1 ≤ 1 ∧
    1 + 1 < (u4c cols).width from
    ⟨le_refl 1, show (2 : ℕ) < 4 by norm_num, le_refl 1,
     show (2 : ℕ) < 4 by norm_num⟩)]
  rw [cannyNbrs_u4c cols hc]
  exact if_pos ⟨cannyMag_nonneg (u4c cols) 1 1, cannyMag_nonneg (u4c cols) 1 1⟩

/-- A 3 x 3 grid, uniform value v on every channel. -/
def u3 (v : ℝ) (cols : ℕ) : Image ℝ := ⟨3, 3, cols, fun _ _ _ => v⟩

/-- Truncated column sums of the 3-wide grid: the center column keeps
three entries of the 5-window, the border columns keep 1, tE, tE^4. -/
noncomputable def cY3 : ℕ → ℝ := fun i =>
  if i = 1 then 1 + 2 * tE else 1 + tE + tE ^ 4

theorem cY3_pos (i : ℕ) : 0 < cY3 i := by
  unfold cY3
  split <;> nlinarith [tE_pos, pow_pos tE_pos 4]

theorem cY3_le (i : ℕ) : cY3 i ≤ colU := by
  unfold cY3 colU
  split <;> nlinarith [tE_pos, pow_pos tE_pos 4]

set_option maxHeartbeats 2000000 in
theorem convPix_u3 (v : ℝ) (cols c y x : ℕ) (hy : y < 3) (hx : x < 3) :
    convPix (u3 v cols) 2 (gaussKer 5 1.4) y x c =
      v * (cY3 x * cY3 y) / colU ^ 2 := by
  have hU0 : (0 : ℝ) < colU := colU_pos
  interval_cases y <;> interval_cases x <;>
  · simp only [convPix, Finset.sum_range_succ, Finset.sum_range_zero]
    norm_num [okZ, u3]
    simp only [gaussKer, gaussTotal_5, gaussWeight_pow]
    norm_num [cY3]
    try simp only [show Int.toNat 8 = 8 from rfl, show Int.toNat 5 = 5 from rfl,
      show Int.toNat 4 = 4 from rfl, show Int.toNat 2 = 2 from rfl,
      show Int.toNat 1 = 1 from rfl, show Int.toNat 0 = 0 from rfl]
    unfold colU
    field_simp
    ring

theorem cannySmooth_u3 (v : ℝ) (cols c y x : ℕ) (hv0 : 0 ≤ v)
    (hv1 : v ≤ 255) (hy : y < 3) (hx : x < 3) (hc : c < cols) :
    (cannySmooth (u3 v cols)).pix y x c =
      v * (cY3 x * cY3 y) / colU ^ 2 := by
  have hU0 : (0 : ℝ) < colU := colU_pos
  have hb : inBounds (u3 v cols) y x c := ⟨hy, hx, hc⟩
  unfold cannySmooth gaussApply convApply
  simp only [if_pos hb]
  show clamp (convPix (u3 v cols) 2 (gaussKer 5 1.4) y x c) 0 255 = _
  rw [convPix_u3 v cols c y x hy hx]
  apply clamp_of_le
  · apply div_nonneg
    · exact mul_nonneg hv0 (mul_nonneg (cY3_pos x).le (cY3_pos y).le)
    · positivity
  · rw [div_le_iff₀ (by positivity)]
    have h1 : cY3 x * cY3 y ≤ colU * colU :=
      mul_le_mul (cY3_le x) (cY3_le y) (cY3_pos y).le colU_pos.le
    have h2 : v * (cY3 x * cY3 y) ≤ v * (colU * colU) :=
      mul_le_mul_of_nonneg_left h1 hv0
    have h3 : v * (colU * colU) ≤ 255 * (colU * colU) :=
      mul_le_mul_of_nonneg_right hv1
        (mul_nonneg colU_pos.le colU_pos.le)
    nlinarith [h2, h3]

theorem cannyGrad_u3 (v : ℝ) (cols : ℕ) (hv0 : 0 ≤ v) (hv1 : v ≤ 255)
    (hcols : 0 < cols) :
    cannyGradX (u3 v cols) 1 1 = 0 ∧ cannyGradY (u3 v cols) 1 1 = 0 := by
  constructor
  · simp only [cannyGradX, Finset.sum_range_succ, Finset.sum_range_zero]
    norm_num [matAt, sobelXmat, List.getD_cons_zero, List.getD_cons_succ]
    rw [cannySmooth_u3 v cols 0 0 0 hv0 hv1 (by norm_num) (by norm_num) hcols,
      cannySmooth_u3 v cols 0 0 2 hv0 hv1 (by norm_num) (by norm_num) hcols,
      cannySmooth_u3 v cols 0 1 0 hv0 hv1 (by norm_num) (by norm_num) hcols,
      cannySmooth_u3 v cols 0 1 2 hv0 hv1 (by norm_num) (by norm_num) hcols,
      cannySmooth_u3 v cols 0 2 0 hv0 hv1 (by norm_num) (by norm_num) hcols,
      cannySmooth_u3 v cols 0 2 2 hv0 hv1 (by norm_num) (by norm_num) hcols]
    unfold cY3
    norm_num
  · simp only [cannyGradY, Finset.sum_range_succ, Finset.sum_range_zero]
    norm_num [matAt, sobelYmat, List.getD_cons_zero, List.getD_cons_succ]
    rw [cannySmooth_u3 v cols 0 0 0 hv0 hv1 (by norm_num) (by norm_num) hcols,
      cannySmooth_u3 v cols 0 0 1 hv0 hv1 (by norm_num) (by norm_num) hcols,
      cannySmooth_u3 v cols 0 0 2 hv0 hv1 (by norm_num) (by norm_num) hcols,
      cannySmooth_u3 v cols 0 2 0 hv0 hv1 (by norm_num) (by norm_num) hcols,
      cannySmooth_u3 v cols 0 2 1 hv0 hv1 (by norm_num) (by norm_num) hcols,
      cannySmooth_u3 v cols 0 2 2 hv0 hv1 (by norm_num) (by norm_num) hcols]
    unfold cY3
    norm_num
    ring

theorem cannyMag_u3 (v : ℝ) (cols : ℕ) (hv0 : 0 ≤ v) (hv1 : v ≤ 255)
    (hcols : 0 < cols) : cannyMag (u3 v cols) 1 1 = 0 := by
  unfold cannyMag
  rw [if_pos (show (1 : ℕ) ≤ 1 ∧ 1 + 1 < (u3 v cols).height ∧ 1 ≤ 1 ∧
    1 + 1 < (u3 v cols).width from
    ⟨le_refl 1, show (2 : ℕ) < 3 by norm_num, le_refl 1,
     show (2 : ℕ) < 3 by norm_num⟩)]
  rw [(cannyGrad_u3 v cols hv0 hv1 hcols).1,
    (cannyGrad_u3 v cols hv0 hv1 hcols).2]
  norm_num [Real.sqrt_zero]

theorem cannySuppressed_u3 (v : ℝ) (cols : ℕ) (hv0 : 0 ≤ v)
    (hv1 : v ≤ 255) (hcols : 0 < cols) (y x : ℕ) :
    cannySuppressed (u3 v cols) y x = 0 := by
  unfold cannySuppressed
  split
  · next h =>
    have hy1 : 1 ≤ y := h.1
    have hy2 : y + 1 < 3 := h.2.1
    have hx1 : 1 ≤ x := h.2.2.1
    have hx2 : x + 1 < 3 := h.2.2.2
    have hy : y = 1 := by omega
    have hx : x = 1 := by omega
    subst hy
    subst hx
    rw [cannyMag_u3 v cols hv0 hv1 hcols]
    simp only [ite_self]
  · rfl

/-- C4 counterexample: the uniform 4 x 4 single-channel grid of value 255
satisfies every premise of the claim (uniform, values in [0, 255],
dimensions at least 3 x 3), yet CannyFilter::apply with low 50 and high
150 stores 255 at cell (1, 1, 0): the output grid is not all zero, because
the Gaussian stage normalizes by the full-kernel total while skipping
out-of-range neighbors, so the smoothed grid is no longer uniform and the
gradient next to the border exceeds the high threshold. -/
theorem canny_uniform_not_all_zero :
    (∀ y x c : ℕ, (u4c 1).pix y x c = 255) ∧
    3 ≤ (u4c 1).width ∧ 3 ≤ (u4c 1).height ∧
    (cannyApply 50 150 (u4c 1)).pix 1 1 0 = 255 ∧ (255 : ℝ) ≠ 0 := by
  refine ⟨fun _ _ _ => rfl, show (3 : ℕ) ≤ 4 by norm_num,
    show (3 : ℕ) ≤ 4 by norm_num, ?_, by norm_num⟩
  have hb : inBounds (u4c 1) 1 1 0 :=
    ⟨show (1 : ℕ) < 4 by norm_num, show (1 : ℕ) < 4 by norm_num,
     show (0 : ℕ) < 1 by norm_num⟩
  unfold cannyApply
  simp only [if_pos hb]
  rw [cannySuppressed_u4c 1 (by norm_num)]
  rw [if_pos (mag150_u4c 1 (by norm_num))]

/-- C4 (amended): CannyFilter::apply with low 50 and high 150 on a uniform
3 x 3 grid with any channel count and any value in [0, 255] stores 0 at
every in-bounds cell; on that size the single interior pixel sees a
symmetric smoothed neighborhood, so both gradients cancel exactly. The
original claim over all dimensions at least 3 x 3 fails (see the uniform
255 grid of size 4 x 4). -/
theorem canny_uniform_small_grid_zero (v : ℝ) (cols y x c : ℕ)
    (hv0 : 0 ≤ v) (hv1 : v ≤ 255) (hy : y < 3) (hx : x < 3)
    (hcc : c < cols) :
    (cannyApply 50 150 (u3 v cols)).pix y x c = 0 := by
  have hcols : 0 < cols := by omega
  have hb : inBounds (u3 v cols) y x c := ⟨hy, hx, hcc⟩
  unfold cannyApply
  simp only [if_pos hb]
  rw [cannySuppressed_u3 v cols hv0 hv1 hcols y x]
  rw [if_neg (show ¬ ((150 : ℝ) ≤ 0) by norm_num),
    if_pos (show (0 : ℝ) < 50 by norm_num)]

theorem canny_uniform_small_grid_zero_witness :
    (0 : ℝ) ≤ 100 ∧ (100 : ℝ) ≤ 255 ∧ 1 < 3 ∧ 1 < 3 ∧ 0 < 1 ∧
    (cannyApply 50 150 (u3 100 1)).pix 1 1 0 = 0 :=
  ⟨by norm_num, by norm_num, by norm_num, by norm_num, by norm_num,
   canny_uniform_small_grid_zero 100 1 1 1 0 (by norm_num) (by norm_num)
     (by norm_num) (by norm_num) (by norm_num)⟩

/-- A 4 x 4 3-channel grid whose channel 0 is 0 everywhere while channels
1 and 2 are 255 everywhere; it agrees with the uniform 255 3-channel grid
on channel 2. -/
def g2c : Image ℝ := ⟨4, 4, 3, fun _ _ c => if c = 0 then 0 else 255⟩

theorem cannySmooth_g2c_ch0 (y x : ℕ) (hy : y < 4) (hx : x < 4) :
    (cannySmooth g2c).pix y x 0 = 0 := by
  have hb : inBounds g2c y x 0 := ⟨hy, hx, show (0 : ℕ) < 3 by norm_num⟩
  unfold cannySmooth gaussApply convApply
  simp only [if_pos hb]
  show clamp (convPix g2c 2 (gaussKer 5 1.4) y x 0) 0 255 = 0
  have hz : convPix g2c 2 (gaussKer 5 1.4) y x 0 = 0 := by
    unfold convPix
    refine Finset.sum_eq_zero ?_
    intro dy _
    refine Finset.sum_eq_zero ?_
    intro dx _
    split
    · exact mul_eq_zero_of_right _ rfl
    · rfl
  rw [hz]
  exact clamp_of_le 0 0 255 (le_refl 0) (by norm_num)

theorem cannyGrad_g2c (y x : ℕ) (hy1 : 1 ≤ y) (hy2 : y + 1 < 4)
    (hx1 : 1 ≤ x) (hx2 : x + 1 < 4) :
    cannyGradX g2c y x = 0 ∧ cannyGradY g2c y x = 0 := by
  constructor
  · unfold cannyGradX
    refine Finset.sum_eq_zero ?_
    intro dy hdy
    refine Finset.sum_eq_zero ?_
    intro dx hdx
    simp only [Finset.mem_range] at hdy hdx
    rw [cannySmooth_g2c_ch0 (y + dy - 1) (x + dx - 1) (by omega) (by omega),
      zero_mul]
  · unfold cannyGradY
    refine Finset.sum_eq_zero ?_
    intro dy hdy
    refine Finset.sum_eq_zero ?_
    intro dx hdx
    simp only [Finset.mem_range] at hdy hdx
    rw [cannySmooth_g2c_ch0 (y + dy - 1) (x + dx - 1) (by omega) (by omega),
      zero_mul]

theorem cannyMag_g2c (y x : ℕ) : cannyMag g2c y x = 0 := by
  unfold cannyMag
  split
  · next h =>
    have hy1 : 1 ≤ y := h.1
    have hy2 : y + 1 < 4 := h.2.1
    have hx1 : 1 ≤ x := h.2.2.1
    have hx2 : x + 1 < 4 := h.2.2.2
    rw [(cannyGrad_g2c y x hy1 hy2 hx1 hx2).1,
      (cannyGrad_g2c y x hy1 hy2 hx1 hx2).2]
    norm_num [Real.sqrt_zero]
  · rfl

theorem cannySuppressed_g2c (y x : ℕ) : cannySuppressed g2c y x = 0 := by
  unfold cannySuppressed
  split
  · rw [cannyMag_g2c y x]
    simp only [ite_self]
  · rfl

/-- C5 counterexample: the uniform 255 3-channel grid and the grid g2c
(channel 0 zeroed, channels 1 and 2 at 255) agree everywhere on channel 2,
yet CannyFilter::apply with low 50 and high 150 stores 255 at cell
(1, 1, 2) of the first and 0 at cell (1, 1, 2) of the second: output
channel 2 depends on input channel 0, because the gradient stage reads
temp[ny][nx * colors], which is channel 0, whatever the channel. -/
theorem canny_channel_dependence_counterexample :
    (u4c 3).colors = 3 ∧ g2c.colors = 3 ∧
    (∀ y x : ℕ, (u4c 3).pix y x 2 = g2c.pix y x 2) ∧
    (cannyApply 50 150 (u4c 3)).pix 1 1 2 = 255 ∧
    (cannyApply 50 150 g2c).pix 1 1 2 = 0 ∧ (255 : ℝ) ≠ 0 := by
  refine ⟨rfl, rfl, fun _ _ => rfl, ?_, ?_, by norm_num⟩
  · have hb : inBounds (u4c 3) 1 1 2 :=
      ⟨show (1 : ℕ) < 4 by norm_num, show (1 : ℕ) < 4 by norm_num,
       show (2 : ℕ) < 3 by norm_num⟩
    unfold cannyApply
    simp only [if_pos hb]
    rw [cannySuppressed_u4c 3 (by norm_num)]
    rw [if_pos (mag150_u4c 3 (by norm_num))]
  · have hb : inBounds g2c 1 1 2 :=
      ⟨show (1 : ℕ) < 4 by norm_num, show (1 : ℕ) < 4 by norm_num,
       show (2 : ℕ) < 3 by norm_num⟩
    unfold cannyApply
    simp only [if_pos hb]
    rw [cannySuppressed_g2c 1 1]
    rw [if_neg (show ¬ ((150 : ℝ) ≤ 0) by norm_num),
      if_pos (show (0 : ℝ) < 50 by norm_num)]

end ImageSpec
